import Mathlib

/-!
Shallow embedding of the core of `src/bill-splitter.py` (the functions
`compute_expense_balances`, `adjust_for_payments` and `settle_debts`).

Modelling choices:
* Python floats are modelled by `ℚ` (exact arithmetic).
* A Python `dict` is an insertion-ordered association list with unique keys;
  `d[k] = v` is `setFirst` (overwrite in place, append when absent) and
  `d[k] += v` is `addAt`, which fails (`none`, modelling `KeyError`) when the
  key is absent.
* A spreadsheet cell is a `String`; the `Amount` cell is modelled as
  `Option ℚ`: `some q` when `float(cell)` succeeds with value `q`, `none` when
  it raises (the `try/except` then uses `0`).
* `str.strip()` is `pyStrip`, `[p.strip() for p in s.split(",") if p.strip()]`
  is `parseParticipants`, `abs` is `rabs`, `min` is `min` — all executable.
* Python's stable `list.sort(key=...)` is modelled by the stable insertion
  sort `sortStable` (any two stable sorts for the same total preorder agree).
* The `while` loop of `settle_debts` is modelled by `settleLoopC`, a
  fuel-indexed recursion over the two cursors `i`, `j` that mutates the local
  lists with `List.set` exactly as the Python does; the fuel
  `debtors.length + creditors.length` is shown sufficient
  (`sweep_fuel_congr`).
* The iteration order of the Python `set` of persons is unspecified; the
  embedding fixes first-encounter order (`insertNew`).  All statements about
  the balance dict are order-independent (lookups and value sums).
-/

/-- Whitespace test used by the model of `str.strip()`. -/
def isWS (ch : Char) : Bool := ch.isWhitespace

/-- Remove leading and trailing whitespace from a character list. -/
def trimChars (cs : List Char) : List Char :=
  ((cs.dropWhile isWS).reverse.dropWhile isWS).reverse

/-- Model of Python `str.strip()`. -/
def pyStrip (s : String) : String := String.mk (trimChars s.toList)

/-- Model of Python `str.split(",")` on the character level: split at every
comma, keeping empty segments (`"".split(",") == [""]`). -/
def splitOnComma : List Char → List (List Char)
  | [] => [[]]
  | ch :: rest =>
    match splitOnComma rest with
    | [] => []
    | cur :: out => if ch = ',' then [] :: cur :: out else (ch :: cur) :: out

/-- Model of `[p.strip() for p in str(participants).split(",") if p.strip()]`
(line 108/122 of the source): split on commas, strip each token, keep the
non-empty ones. -/
def parseParticipants (s : String) : List String :=
  ((splitOnComma s.toList).map (fun cs => String.mk (trimChars cs))).filter
    (fun t => t ≠ "")

/-- A net-balance dict: insertion-ordered association list person ↦ amount. -/
abbrev NB := List (String × ℚ)

/-- A settlement transaction `(Debtor, Creditor, Amount)`, as the Python
tuple. -/
abbrev Txn := String × String × ℚ

/-- Dict lookup (`d[k]` as a query; keys are unique in every dict the code
builds). -/
def dictGet : NB → String → Option ℚ
  | [], _ => none
  | e :: m, k => if e.1 = k then some e.2 else dictGet m k

/-- Model of `d[k] = v`: overwrite the entry in place when the key exists,
append the new entry otherwise (Python 3.7+ dicts preserve insertion
order). -/
def setFirst : NB → String → ℚ → NB
  | [], k, v => [(k, v)]
  | e :: m, k, v => if e.1 = k then (k, v) :: m else e :: setFirst m k v

/-- Model of `d[k] += v`: update the entry in place; `none` models the
`KeyError` raised when the key is absent. -/
def addAt : NB → String → ℚ → Option NB
  | [], _, _ => none
  | e :: m, k, v =>
    if e.1 = k then some ((k, e.2 + v) :: m)
    else (addAt m k v).map (fun m2 => e :: m2)

/-- Sum of the values of a balance dict (`sum(net_balance.values())`). -/
def sumValues (m : NB) : ℚ := (m.map Prod.snd).sum

/-- Add an element to a duplicate-free list if not already present (the
model of inserting into the Python `set` of persons, with first-encounter
iteration order fixed). -/
def insertNew (l : List String) (x : String) : List String :=
  if x ∈ l then l else l ++ [x]

/-- One row of the expense worksheet (columns
`Date, Payer, Amount, Participants, Split Type, Percentages, Notes`).
`amount` is `some q` when `float(cell)` parses to `q`, `none` when the cell
is non-numeric. -/
structure ExpenseRow where
  date : String
  payer : String
  amount : Option ℚ
  participants : String
  splitType : String
  percentages : String
  notes : String

/-- One row of the payment worksheet (columns
`Date, Payer, Amount, Payee, Notes`). -/
structure PaymentRow where
  date : String
  payer : String
  amount : Option ℚ
  payee : String
  notes : String

/-- Body of the first pass of `compute_expense_balances` for one row
(source lines 105–116): add the payer (when non-empty, `if payer:`) and
every parsed participant to the person set. -/
def collectStep (acc : List String) (r : ExpenseRow) : List String :=
  let payer := pyStrip r.payer
  let plist := parseParticipants r.participants
  plist.foldl insertNew (if payer ≠ "" then insertNew acc payer else acc)

/-- First pass of `compute_expense_balances` (source lines 103–116): collect
every person mentioned as (non-empty) payer or participant of an expense
row. -/
def collectPersons (es : List ExpenseRow) : List String :=
  es.foldl collectStep []

/-- `for person in persons: net_balance[person] = 0.0` (source lines
117–118). -/
def initBalances (ps : List String) : NB :=
  ps.foldl (fun m p => setFirst m p 0) []

/-- `share = amount / len(participant_list) if participant_list else 0`
(source line 127). -/
def expShare (r : ExpenseRow) : ℚ :=
  if parseParticipants r.participants ≠ [] then
    (r.amount.getD 0) / ((parseParticipants r.participants).length : ℚ)
  else 0

/-- Second-pass body of `compute_expense_balances` (source lines 119–130):
credit the payer with the full amount, debit each participant by the equal
share `expShare`.  `none` models the `KeyError` when `net_balance[payer]`
is accessed for a payer that is not a key (e.g. an empty payer). -/
def applyExpense (m : NB) (r : ExpenseRow) : Option NB :=
  (addAt m (pyStrip r.payer) (r.amount.getD 0)).bind
    (fun m1 => (parseParticipants r.participants).foldlM
      (fun acc p => addAt acc p (-(expShare r))) m1)

/-- `compute_expense_balances` (source lines 95–131): initialise every
mentioned person to `0.0`, then fold the expense rows. -/
def compute_expense_balances (es : List ExpenseRow) : Option NB :=
  es.foldlM applyExpense (initBalances (collectPersons es))

/-- Per-row body of `adjust_for_payments` (source lines 140–150): the payer's
balance increases by the amount, the payee's decreases; empty names are
skipped; a non-key name raises `KeyError` (modelled by `none`). -/
def applyPayment (m : NB) (r : PaymentRow) : Option NB :=
  (if pyStrip r.payer ≠ "" then
      addAt m (pyStrip r.payer) (r.amount.getD 0)
    else some m).bind
    (fun m1 => if pyStrip r.payee ≠ "" then
        addAt m1 (pyStrip r.payee) (-(r.amount.getD 0))
      else some m1)

/-- `adjust_for_payments` (source lines 133–151). -/
def adjust_for_payments (m : NB) (ps : List PaymentRow) : Option NB :=
  ps.foldlM applyPayment m

/-- The epsilon `1e-9` used throughout `settle_debts`. -/
def eps : ℚ := 1 / 1000000000

/-- Model of Python `abs` on a number. -/
def rabs (x : ℚ) : ℚ := if x < 0 then -x else x

/-- The creditor filter `amt > 1e-9` (source line 158). -/
def isCreditor (e : String × ℚ) : Bool := decide (eps < e.2)

/-- The debtor filter `amt < -1e-9` (source line 159). -/
def isDebtor (e : String × ℚ) : Bool := decide (e.2 < -eps)

/-- Stable insertion of `x` after all already-placed elements `y` with
`le y x` (so elements equal under the comparison keep their original
relative order). -/
def insertOrd (le : (String × ℚ) → (String × ℚ) → Bool) :
    List (String × ℚ) → (String × ℚ) → List (String × ℚ)
  | [], x => [x]
  | y :: ys, x => if le y x then y :: insertOrd le ys x else x :: y :: ys

/-- Stable insertion sort: the model of Python's stable `list.sort`. -/
def sortStable (le : (String × ℚ) → (String × ℚ) → Bool)
    (l : List (String × ℚ)) : List (String × ℚ) :=
  l.foldl (insertOrd le) []

/-- Comparison for `creditors.sort(key=lambda x: x[1], reverse=True)`:
`y` stays before a later `x` iff `x.2 ≤ y.2` (stable descending). -/
def descLe (y x : String × ℚ) : Bool := decide (x.2 ≤ y.2)

/-- Comparison for `debtors.sort(key=lambda x: x[1])`: `y` stays before a
later `x` iff `y.2 ≤ x.2` (stable ascending). -/
def ascLe (y x : String × ℚ) : Bool := decide (y.2 ≤ x.2)

/-- The `while i < len(debtors) and j < len(creditors)` loop of
`settle_debts` (source lines 163–176), with the cursor mutation written
exactly as in the source: read `debtors[i]`/`creditors[j]`, emit the
settlement, write the updated pairs back with `List.set`, advance each
cursor whose remaining amount is within `1e-9` of `0`.  The loop is indexed
by fuel; `settle_debts` supplies fuel that is never exhausted
(`sweep_fuel_congr` below). -/
def settleLoopC : Nat → Nat → Nat → List (String × ℚ) → List (String × ℚ) →
    List Txn
  | 0, _, _, _, _ => []
  | fuel + 1, i, j, debtors, creditors =>
    match debtors.get? i, creditors.get? j with
    | some (debtor, dAmt), some (creditor, cAmt) =>
      let settlement := min cAmt (-dAmt)
      let dAmt2 := dAmt + settlement
      let cAmt2 := cAmt - settlement
      let debtors2 := debtors.set i (debtor, dAmt2)
      let creditors2 := creditors.set j (creditor, cAmt2)
      let i2 := if rabs dAmt2 < eps then i + 1 else i
      let j2 := if rabs cAmt2 < eps then j + 1 else j
      (debtor, creditor, settlement) :: settleLoopC fuel i2 j2 debtors2 creditors2
    | _, _ => []

/-- `settle_debts` (source lines 153–177): partition, stable sort, greedy
two-cursor sweep. -/
def settle_debts (nb : NB) : List Txn :=
  let creditors := nb.filter isCreditor
  let debtors := nb.filter isDebtor
  let creditors2 := sortStable descLe creditors
  let debtors2 := sortStable ascLe debtors
  settleLoopC (debtors2.length + creditors2.length) 0 0 debtors2 creditors2

/-- The sweep written as structural recursion consuming the two sorted
lists (the suffixes from the cursors on); this is the wording of the
specification's greedy sweep and is proved extensionally equal to the
cursor loop (`settleLoopC_eq_sweep`). -/
def sweep : Nat → List (String × ℚ) → List (String × ℚ) → List Txn
  | 0, _, _ => []
  | _ + 1, [], _ => []
  | _ + 1, _, [] => []
  | fuel + 1, (debtor, dAmt) :: ds, (creditor, cAmt) :: cs =>
    let amount := min cAmt (-dAmt)
    let dAmt2 := dAmt + amount
    let cAmt2 := cAmt - amount
    (debtor, creditor, amount) ::
      sweep fuel (if rabs dAmt2 < eps then ds else (debtor, dAmt2) :: ds)
        (if rabs cAmt2 < eps then cs else (creditor, cAmt2) :: cs)

/-- The settlement planner as described by the specification: partition into
creditors (`> 1e-9`) and debtors (`< -1e-9`), sort descending/ascending
(stable), then sweep two cursors emitting `min(c, -d)` settlements. -/
def settle_debts_spec (nb : NB) : List Txn :=
  let creditors := nb.filter isCreditor
  let debtors := nb.filter isDebtor
  let creditors2 := sortStable descLe creditors
  let debtors2 := sortStable ascLe debtors
  sweep (debtors2.length + creditors2.length) debtors2 creditors2

/-- `settle_debts` with its heap effect made explicit: the function receives
the balance dict, only iterates over it (`net_balance.items()`, source line
158–159) and mutates nothing but the two local lists freshly built by the
comprehensions, so the dict after the call is the dict before the call. -/
def settle_debts_state (nb : NB) : List Txn × NB := (settle_debts nb, nb)

/-- The sorted debtor list built by `settle_debts` (source lines 159, 161). -/
def debtorsOf (nb : NB) : NB := sortStable ascLe (nb.filter isDebtor)

/-- The sorted creditor list built by `settle_debts` (source lines 158,
160). -/
def creditorsOf (nb : NB) : NB := sortStable descLe (nb.filter isCreditor)

/-- Total amount paid by `p` as debtor over a transaction list. -/
def paidAmt : String → List Txn → ℚ
  | _, [] => 0
  | p, t :: ts => (if t.1 = p then t.2.2 else 0) + paidAmt p ts

/-- Total amount received by `p` as creditor over a transaction list. -/
def recvAmt : String → List Txn → ℚ
  | _, [] => 0
  | p, t :: ts => (if t.2.1 = p then t.2.2 else 0) + recvAmt p ts

/-! ### Basic lemmas about the dict model and `rabs` -/

theorem rabs_nonneg (x : ℚ) : 0 ≤ rabs x := by
  unfold rabs; split <;> linarith

theorem rabs_of_nonpos {x : ℚ} (h : x ≤ 0) : rabs x = -x := by
  unfold rabs; split
  · rfl
  · have : x = 0 := le_antisymm h (not_lt.mp (by assumption))
    simp [this]

theorem rabs_of_nonneg {x : ℚ} (h : 0 ≤ x) : rabs x = x := by
  unfold rabs; split
  · linarith
  · rfl

theorem rabs_le_iff {x b : ℚ} : rabs x ≤ b ↔ -b ≤ x ∧ x ≤ b := by
  unfold rabs; split <;> constructor <;> intro h <;>
    first
      | exact ⟨by linarith, by linarith⟩
      | (obtain ⟨h1, h2⟩ := h; linarith)

theorem rabs_lt_iff {x b : ℚ} : rabs x < b ↔ -b < x ∧ x < b := by
  unfold rabs; split <;> constructor <;> intro h <;>
    first
      | exact ⟨by linarith, by linarith⟩
      | (obtain ⟨h1, h2⟩ := h; linarith)

theorem rabs_eq_abs (x : ℚ) : rabs x = |x| := by
  rcases le_or_lt x 0 with h | h
  · rw [rabs_of_nonpos h, abs_of_nonpos h]
  · rw [rabs_of_nonneg h.le, abs_of_pos h]

@[simp] theorem sumValues_nil : sumValues [] = 0 := rfl

@[simp] theorem sumValues_cons (e : String × ℚ) (m : NB) :
    sumValues (e :: m) = e.2 + sumValues m := by
  simp [sumValues]

theorem dictGet_mem {m : NB} {k : String} {v : ℚ} (h : dictGet m k = some v) :
    (k, v) ∈ m := by
  induction m with
  | nil => simp [dictGet] at h
  | cons e m ih =>
    by_cases he : e.1 = k
    · simp only [dictGet, he, if_pos] at h
      cases h
      have hke : (k, e.2) = e := by rw [← he]
      rw [hke]
      exact List.mem_cons_self _ _
    · simp only [dictGet, he, if_neg, not_false_iff] at h
      exact List.mem_cons_of_mem _ (ih h)

theorem mem_dictGet {m : NB} {k : String} {v : ℚ}
    (hnd : (m.map Prod.fst).Nodup) (h : (k, v) ∈ m) : dictGet m k = some v := by
  induction m with
  | nil => simp at h
  | cons e m ih =>
    simp only [List.map_cons, List.nodup_cons] at hnd
    rcases List.mem_cons.mp h with h | h
    · subst h; simp [dictGet]
    · have hne : e.1 ≠ k := by
        intro hk
        exact hnd.1 (hk ▸ (List.mem_map.mpr ⟨(k, v), h, rfl⟩))
      simp only [dictGet, hne, if_neg, not_false_iff]
      exact ih hnd.2 h

theorem addAt_eq_some {m : NB} {k : String} (hk : k ∈ m.map Prod.fst) (v : ℚ) :
    ∃ m', addAt m k v = some m' := by
  induction m with
  | nil => simp at hk
  | cons e m ih =>
    by_cases he : e.1 = k
    · exact ⟨(k, e.2 + v) :: m, by simp [addAt, he]⟩
    · simp only [List.map_cons, List.mem_cons] at hk
      rcases hk with hk | hk
      · exact absurd hk.symm he
      · obtain ⟨m2, hm2⟩ := ih hk
        exact ⟨e :: m2, by simp [addAt, he, hm2]⟩

theorem addAt_none {m : NB} {k : String} {v : ℚ} (h : addAt m k v = none) :
    k ∉ m.map Prod.fst := by
  induction m with
  | nil => simp
  | cons e m ih =>
    by_cases he : e.1 = k
    · simp [addAt, he] at h
    · simp only [addAt, he, if_neg, not_false_iff] at h
      simp only [List.map_cons, List.mem_cons]
      rintro (hk | hk)
      · exact he hk.symm
      · exact ih (by cases haa : addAt m k v <;> simp [haa] at h ⊢) hk

theorem addAt_keys {m m' : NB} {k : String} {v : ℚ}
    (h : addAt m k v = some m') : m'.map Prod.fst = m.map Prod.fst := by
  induction m generalizing m' with
  | nil => simp [addAt] at h
  | cons e m ih =>
    by_cases he : e.1 = k
    · simp only [addAt, he, if_pos, Option.some.injEq] at h
      subst h; simp [he]
    · simp only [addAt, he, if_neg, not_false_iff] at h
      cases haa : addAt m k v with
      | none => simp [haa] at h
      | some m2 =>
        simp only [haa, Option.map_some', Option.some.injEq] at h
        subst h; simp [ih haa]

theorem addAt_sum {m m' : NB} {k : String} {v : ℚ}
    (h : addAt m k v = some m') : sumValues m' = sumValues m + v := by
  induction m generalizing m' with
  | nil => simp [addAt] at h
  | cons e m ih =>
    by_cases he : e.1 = k
    · simp only [addAt, he, if_pos, Option.some.injEq] at h
      subst h; simp [sumValues]; ring
    · simp only [addAt, he, if_neg, not_false_iff] at h
      cases haa : addAt m k v with
      | none => simp [haa] at h
      | some m2 =>
        simp only [haa, Option.map_some', Option.some.injEq] at h
        subst h
        simp [sumValues] at ih ⊢
        rw [ih haa]; ring

theorem addAt_dictGet_self {m m' : NB} {k : String} {v : ℚ}
    (h : addAt m k v = some m') :
    dictGet m' k = (dictGet m k).map (fun x => x + v) := by
  induction m generalizing m' with
  | nil => simp [addAt] at h
  | cons e m ih =>
    by_cases he : e.1 = k
    · simp only [addAt, he, if_pos, Option.some.injEq] at h
      subst h; simp [dictGet, he]
    · simp only [addAt, he, if_neg, not_false_iff] at h
      cases haa : addAt m k v with
      | none => simp [haa] at h
      | some m2 =>
        simp only [haa, Option.map_some', Option.some.injEq] at h
        subst h
        simp [dictGet, he, ih haa]

theorem addAt_dictGet_other {m m' : NB} {k q : String} {v : ℚ}
    (hq : q ≠ k) (h : addAt m k v = some m') : dictGet m' q = dictGet m q := by
  induction m generalizing m' with
  | nil => simp [addAt] at h
  | cons e m ih =>
    by_cases he : e.1 = k
    · simp only [addAt, he, if_pos, Option.some.injEq] at h
      subst h
      have : k ≠ q := fun hh => hq hh.symm
      simp [dictGet, he, this]
    · simp only [addAt, he, if_neg, not_false_iff] at h
      cases haa : addAt m k v with
      | none => simp [haa] at h
      | some m2 =>
        simp only [haa, Option.map_some', Option.some.injEq] at h
        subst h
        simp [dictGet, ih haa]

/-! ### Person collection and balance initialisation -/

theorem setFirst_absent {m : NB} {k : String} (hk : k ∉ m.map Prod.fst)
    (v : ℚ) : setFirst m k v = m ++ [(k, v)] := by
  induction m with
  | nil => rfl
  | cons e m ih =>
    simp only [List.map_cons, List.mem_cons, not_or] at hk
    have he : ¬ e.1 = k := fun h => hk.1 h.symm
    simp [setFirst, he, ih hk.2]

theorem mem_insertNew {l : List String} {x y : String} :
    y ∈ insertNew l x ↔ y = x ∨ y ∈ l := by
  unfold insertNew; split
  · constructor
    · exact fun h => Or.inr h
    · rintro (rfl | h)
      · assumption
      · exact h
  · simp only [List.mem_append, List.mem_singleton]
    tauto

theorem insertNew_nodup {l : List String} (h : l.Nodup) (x : String) :
    (insertNew l x).Nodup := by
  unfold insertNew; split
  · exact h
  · simp only [List.nodup_append, List.nodup_singleton, true_and]
    exact ⟨h, by simpa [List.disjoint_singleton] using (by assumption)⟩

theorem foldl_insertNew_nodup :
    ∀ (ps : List String) (acc : List String), acc.Nodup →
      (ps.foldl insertNew acc).Nodup := by
  intro ps
  induction ps with
  | nil => exact fun acc h => h
  | cons p ps ih => exact fun acc h => ih _ (insertNew_nodup h p)

theorem mem_foldl_insertNew_of_acc :
    ∀ (ps : List String) (acc : List String) (q : String), q ∈ acc →
      q ∈ ps.foldl insertNew acc := by
  intro ps
  induction ps with
  | nil => exact fun acc q h => h
  | cons p ps ih =>
    exact fun acc q h => ih _ _ (mem_insertNew.mpr (Or.inr h))

theorem mem_foldl_insertNew_of_mem :
    ∀ (ps : List String) (acc : List String) (q : String), q ∈ ps →
      q ∈ ps.foldl insertNew acc := by
  intro ps
  induction ps with
  | nil => intro acc q h; simp at h
  | cons p ps ih =>
    intro acc q h
    rcases List.mem_cons.mp h with rfl | h
    · exact mem_foldl_insertNew_of_acc ps (insertNew acc q) q
        (mem_insertNew.mpr (Or.inl rfl))
    · exact ih _ _ h

theorem mem_collectStep_of_acc {acc : List String} {r : ExpenseRow}
    {q : String} (h : q ∈ acc) : q ∈ collectStep acc r := by
  unfold collectStep
  apply mem_foldl_insertNew_of_acc
  split
  · exact mem_insertNew.mpr (Or.inr h)
  · exact h

theorem payer_mem_collectStep {acc : List String} {r : ExpenseRow}
    (h : pyStrip r.payer ≠ "") : pyStrip r.payer ∈ collectStep acc r := by
  unfold collectStep
  apply mem_foldl_insertNew_of_acc
  simp only [h, if_pos, ne_eq, not_false_iff]
  exact mem_insertNew.mpr (Or.inl rfl)

theorem participant_mem_collectStep {acc : List String} {r : ExpenseRow}
    {q : String} (h : q ∈ parseParticipants r.participants) :
    q ∈ collectStep acc r := mem_foldl_insertNew_of_mem _ _ _ h

theorem collectStep_nodup {acc : List String} (h : acc.Nodup)
    (r : ExpenseRow) : (collectStep acc r).Nodup := by
  unfold collectStep
  apply foldl_insertNew_nodup
  split
  · exact insertNew_nodup h _
  · exact h

theorem collectPersons_nodup (es : List ExpenseRow) :
    (collectPersons es).Nodup := by
  have h : ∀ (l : List ExpenseRow) (acc : List String), acc.Nodup →
      (l.foldl collectStep acc).Nodup := by
    intro l
    induction l with
    | nil => exact fun acc h => h
    | cons r l ih => exact fun acc h => ih _ (collectStep_nodup h r)
  exact h es [] List.nodup_nil

theorem mem_foldl_collectStep_of_acc :
    ∀ (l : List ExpenseRow) (acc : List String) (q : String), q ∈ acc →
      q ∈ l.foldl collectStep acc := by
  intro l
  induction l with
  | nil => exact fun acc q h => h
  | cons r l ih => exact fun acc q h => ih _ _ (mem_collectStep_of_acc h)

theorem mem_collectPersons_payer {es : List ExpenseRow} {r : ExpenseRow}
    (hr : r ∈ es) (h : pyStrip r.payer ≠ "") :
    pyStrip r.payer ∈ collectPersons es := by
  have key : ∀ (l : List ExpenseRow) (acc : List String), r ∈ l →
      pyStrip r.payer ∈ l.foldl collectStep acc := by
    intro l
    induction l with
    | nil => intro acc hm; simp at hm
    | cons s l ih =>
      intro acc hm
      rcases List.mem_cons.mp hm with rfl | hm
      · exact mem_foldl_collectStep_of_acc l _ _ (payer_mem_collectStep h)
      · exact ih _ hm
  exact key es [] hr

theorem mem_collectPersons_participant {es : List ExpenseRow} {r : ExpenseRow}
    {q : String} (hr : r ∈ es) (h : q ∈ parseParticipants r.participants) :
    q ∈ collectPersons es := by
  have key : ∀ (l : List ExpenseRow) (acc : List String), r ∈ l →
      q ∈ l.foldl collectStep acc := by
    intro l
    induction l with
    | nil => intro acc hm; simp at hm
    | cons s l ih =>
      intro acc hm
      rcases List.mem_cons.mp hm with rfl | hm
      · exact mem_foldl_collectStep_of_acc l _ _ (participant_mem_collectStep h)
      · exact ih _ hm
  exact key es [] hr

theorem foldl_setFirst_zero :
    ∀ (ps : List String) (m : NB), ps.Nodup →
      (∀ p ∈ ps, p ∉ m.map Prod.fst) →
      ps.foldl (fun m p => setFirst m p 0) m = m ++ ps.map (fun p => (p, 0)) := by
  intro ps
  induction ps with
  | nil => intro m _ _; simp
  | cons p ps ih =>
    intro m hnd habs
    simp only [List.nodup_cons] at hnd
    have hp : p ∉ m.map Prod.fst := habs p (by simp)
    show ps.foldl (fun m p => setFirst m p 0) (setFirst m p 0) = _
    rw [setFirst_absent hp 0, ih (m ++ [(p, 0)]) hnd.2 ?habs2]
    · simp
    case habs2 =>
      intro q hq
      simp only [List.map_append, List.map_cons, List.map_nil,
        List.mem_append, List.mem_singleton, not_or]
      exact ⟨habs q (List.mem_cons_of_mem _ hq), fun hqp => hnd.1 (hqp ▸ hq)⟩

theorem initBalances_eq {ps : List String} (h : ps.Nodup) :
    initBalances ps = ps.map (fun p => (p, 0)) := by
  unfold initBalances
  rw [foldl_setFirst_zero ps [] h (by simp)]
  simp

theorem initBalances_keys {ps : List String} (h : ps.Nodup) :
    (initBalances ps).map Prod.fst = ps := by
  rw [initBalances_eq h, List.map_map]
  have hid : (Prod.fst ∘ fun p : String => (p, (0 : ℚ))) = id := rfl
  rw [hid, List.map_id]

theorem initBalances_sum {ps : List String} (h : ps.Nodup) :
    sumValues (initBalances ps) = 0 := by
  rw [initBalances_eq h]
  unfold sumValues
  rw [List.map_map]
  have hsum : ∀ l : List String,
      (l.map (Prod.snd ∘ fun p => ((p : String), (0 : ℚ)))).sum = 0 := by
    intro l
    induction l with
    | nil => rfl
    | cons p l ih => simpa using ih
  exact hsum ps

theorem initBalances_get {ps : List String} (h : ps.Nodup) {p : String}
    (hp : p ∈ ps) : dictGet (initBalances ps) p = some 0 := by
  apply mem_dictGet
  · rw [initBalances_keys h]; exact h
  · rw [initBalances_eq h]; exact List.mem_map.mpr ⟨p, hp, rfl⟩

/-! ### The participant fold inside `applyExpense` -/

theorem foldlM_addAt_keys {v : ℚ} :
    ∀ (l : List String) (m m' : NB),
      l.foldlM (fun acc p => addAt acc p v) m = some m' →
      m'.map Prod.fst = m.map Prod.fst := by
  intro l
  induction l with
  | nil => intro m m' h; simp [List.foldlM] at h; subst h; rfl
  | cons p l ih =>
    intro m m' h
    rw [List.foldlM_cons] at h
    rcases Option.bind_eq_some.mp h with ⟨m1, hm1, hrest⟩
    rw [ih _ _ hrest, addAt_keys hm1]

theorem foldlM_addAt_sum {v : ℚ} :
    ∀ (l : List String) (m m' : NB),
      l.foldlM (fun acc p => addAt acc p v) m = some m' →
      sumValues m' = sumValues m + l.length * v := by
  intro l
  induction l with
  | nil => intro m m' h; simp [List.foldlM] at h; subst h; simp
  | cons p l ih =>
    intro m m' h
    rw [List.foldlM_cons] at h
    rcases Option.bind_eq_some.mp h with ⟨m1, hm1, hrest⟩
    rw [ih _ _ hrest, addAt_sum hm1]
    simp only [List.length_cons]
    push_cast
    ring

theorem foldlM_addAt_total {v : ℚ} :
    ∀ (l : List String) (m : NB), (∀ p ∈ l, p ∈ m.map Prod.fst) →
      ∃ m', l.foldlM (fun acc p => addAt acc p v) m = some m' := by
  intro l
  induction l with
  | nil => intro m _; exact ⟨m, by simp [List.foldlM]⟩
  | cons p l ih =>
    intro m h
    obtain ⟨m1, hm1⟩ := addAt_eq_some (h p (by simp)) v
    obtain ⟨m', hm'⟩ := ih m1 (fun q hq => by
      rw [addAt_keys hm1]; exact h q (List.mem_cons_of_mem _ hq))
    refine ⟨m', ?_⟩
    rw [List.foldlM_cons, hm1]
    simpa using hm'

theorem foldlM_addAt_get {v : ℚ} :
    ∀ (l : List String), l.Nodup → ∀ (m m' : NB),
      l.foldlM (fun acc p => addAt acc p v) m = some m' →
      ∀ q, dictGet m' q =
        (dictGet m q).map (fun x => x + (if q ∈ l then v else 0)) := by
  intro l
  induction l with
  | nil =>
    intro _ m m' h q
    simp [List.foldlM] at h; subst h
    cases dictGet m q <;> simp
  | cons p l ih =>
    intro hnd m m' h q
    simp only [List.nodup_cons] at hnd
    rw [List.foldlM_cons] at h
    rcases Option.bind_eq_some.mp h with ⟨m1, hm1, hrest⟩
    by_cases hqp : q = p
    · subst hqp
      rw [ih hnd.2 _ _ hrest q, addAt_dictGet_self hm1]
      cases dictGet m q <;> simp [hnd.1]
    · rw [ih hnd.2 _ _ hrest q, addAt_dictGet_other hqp hm1]
      by_cases hql : q ∈ l <;>
        cases dictGet m q <;> simp [hql, hqp, List.mem_cons]

/-! ### Sum preservation through the pipeline (for the zero-sum claim) -/

theorem applyExpense_sum_zero {m m' : NB} {r : ExpenseRow}
    (h : applyExpense m r = some m')
    (hc : parseParticipants r.participants ≠ [] ∨ r.amount.getD 0 = 0) :
    sumValues m' = sumValues m := by
  unfold applyExpense at h
  rcases Option.bind_eq_some.mp h with ⟨m1, hm1, hrest⟩
  rw [foldlM_addAt_sum _ _ _ hrest, addAt_sum hm1]
  rcases hc with hc | hc
  · unfold expShare
    rw [if_pos hc]
    have hlen : ((parseParticipants r.participants).length : ℚ) ≠ 0 := by
      have hpos := List.length_pos.mpr hc
      exact_mod_cast Nat.pos_iff_ne_zero.mp hpos
    field_simp
    ring
  · unfold expShare
    rw [hc]
    split <;> simp

theorem applyPayment_sum_zero {m m' : NB} {r : PaymentRow}
    (h : applyPayment m r = some m')
    (hc : (pyStrip r.payer ≠ "" ∧ pyStrip r.payee ≠ "") ∨
      r.amount.getD 0 = 0) :
    sumValues m' = sumValues m := by
  unfold applyPayment at h
  rcases Option.bind_eq_some.mp h with ⟨m1, hm1, hrest⟩
  by_cases hpayer : pyStrip r.payer ≠ "" <;>
    by_cases hpayee : pyStrip r.payee ≠ ""
  · rw [if_pos hpayer] at hm1
    rw [if_pos hpayee] at hrest
    rw [addAt_sum hrest, addAt_sum hm1]
    ring
  · rw [if_pos hpayer] at hm1
    rw [if_neg hpayee] at hrest
    cases hrest
    rw [addAt_sum hm1]
    rcases hc with hc | hc
    · exact absurd hc.2 hpayee
    · rw [hc]; ring
  · rw [if_neg hpayer] at hm1
    cases hm1
    rw [if_pos hpayee] at hrest
    rw [addAt_sum hrest]
    rcases hc with hc | hc
    · exact absurd hc.1 hpayer
    · rw [hc]; ring
  · rw [if_neg hpayer] at hm1
    cases hm1
    rw [if_neg hpayee] at hrest
    cases hrest
    rfl

theorem foldlM_applyExpense_sum :
    ∀ (l : List ExpenseRow) (m m' : NB),
      l.foldlM applyExpense m = some m' →
      (∀ r ∈ l, parseParticipants r.participants ≠ [] ∨
        r.amount.getD 0 = 0) →
      sumValues m' = sumValues m := by
  intro l
  induction l with
  | nil => intro m m' h _; simp [List.foldlM] at h; subst h; rfl
  | cons r l ih =>
    intro m m' h hc
    rw [List.foldlM_cons] at h
    rcases Option.bind_eq_some.mp h with ⟨m1, hm1, hrest⟩
    rw [ih _ _ hrest (fun s hs => hc s (List.mem_cons_of_mem _ hs)),
      applyExpense_sum_zero hm1 (hc r (by simp))]

theorem compute_sum_zero {es : List ExpenseRow} {m' : NB}
    (h : compute_expense_balances es = some m')
    (hc : ∀ r ∈ es, parseParticipants r.participants ≠ [] ∨
      r.amount.getD 0 = 0) :
    sumValues m' = 0 := by
  unfold compute_expense_balances at h
  rw [foldlM_applyExpense_sum es _ _ h hc,
    initBalances_sum (collectPersons_nodup es)]

theorem adjust_sum_zero :
    ∀ (l : List PaymentRow) (m m' : NB),
      adjust_for_payments m l = some m' →
      (∀ r ∈ l, (pyStrip r.payer ≠ "" ∧ pyStrip r.payee ≠ "") ∨
        r.amount.getD 0 = 0) →
      sumValues m' = sumValues m := by
  intro l
  induction l with
  | nil =>
    intro m m' h _
    simp [adjust_for_payments, List.foldlM] at h
    subst h; rfl
  | cons r l ih =>
    intro m m' h hc
    unfold adjust_for_payments at h
    rw [List.foldlM_cons] at h
    rcases Option.bind_eq_some.mp h with ⟨m1, hm1, hrest⟩
    rw [ih _ _ hrest (fun s hs => hc s (List.mem_cons_of_mem _ hs)),
      applyPayment_sum_zero hm1 (hc r (by simp))]

/-! ### Stable sort: permutation and sortedness -/

theorem insertOrd_perm (le : (String × ℚ) → (String × ℚ) → Bool)
    (l : List (String × ℚ)) (x : String × ℚ) :
    (insertOrd le l x).Perm (x :: l) := by
  induction l with
  | nil => exact List.Perm.refl _
  | cons y ys ih =>
    unfold insertOrd
    split
    · exact (ih.cons y).trans (List.Perm.swap x y ys)
    · exact List.Perm.refl _

theorem sortStable_perm (le : (String × ℚ) → (String × ℚ) → Bool)
    (l : List (String × ℚ)) : (sortStable le l).Perm l := by
  have key : ∀ (l acc : List (String × ℚ)),
      (l.foldl (insertOrd le) acc).Perm (acc ++ l) := by
    intro l
    induction l with
    | nil => intro acc; simp
    | cons x l ih =>
      intro acc
      have h1 : (l.foldl (insertOrd le) (insertOrd le acc x)).Perm
          (insertOrd le acc x ++ l) := ih _
      have h2 : (insertOrd le acc x ++ l).Perm ((x :: acc) ++ l) :=
        (insertOrd_perm le acc x).append_right l
      have h3 : ((x :: acc) ++ l).Perm (acc ++ x :: l) := List.perm_middle.symm
      exact (h1.trans h2).trans h3
  exact (key l []).trans (by simp)

theorem mem_insertOrd {le : (String × ℚ) → (String × ℚ) → Bool}
    {l : List (String × ℚ)} {x y : String × ℚ} :
    y ∈ insertOrd le l x ↔ y = x ∨ y ∈ l := by
  rw [(insertOrd_perm le l x).mem_iff]
  simp

theorem insertOrd_pairwise {le : (String × ℚ) → (String × ℚ) → Bool}
    (htot : ∀ a b, le a b = true ∨ le b a = true)
    (htr : ∀ a b c, le a b = true → le b c = true → le a c = true) :
    ∀ (l : List (String × ℚ)) (x : String × ℚ),
      l.Pairwise (fun a b => le a b = true) →
      (insertOrd le l x).Pairwise (fun a b => le a b = true) := by
  intro l
  induction l with
  | nil => intro x _; simp [insertOrd]
  | cons y ys ih =>
    intro x hp
    rw [List.pairwise_cons] at hp
    by_cases hle : le y x = true
    · rw [show insertOrd le (y :: ys) x = y :: insertOrd le ys x from by
        simp [insertOrd, hle]]
      rw [List.pairwise_cons]
      refine ⟨?_, ih x hp.2⟩
      intro z hz
      rcases mem_insertOrd.mp hz with rfl | hz
      · exact hle
      · exact hp.1 z hz
    · rw [show insertOrd le (y :: ys) x = x :: y :: ys from by
        simp [insertOrd, hle]]
      have hxy : le x y = true := (htot y x).resolve_left hle
      rw [List.pairwise_cons]
      refine ⟨?_, List.pairwise_cons.mpr ⟨hp.1, hp.2⟩⟩
      intro z hz
      rcases List.mem_cons.mp hz with rfl | hz
      · exact hxy
      · exact htr x y z hxy (hp.1 z hz)

theorem sortStable_pairwise {le : (String × ℚ) → (String × ℚ) → Bool}
    (htot : ∀ a b, le a b = true ∨ le b a = true)
    (htr : ∀ a b c, le a b = true → le b c = true → le a c = true)
    (l : List (String × ℚ)) :
    (sortStable le l).Pairwise (fun a b => le a b = true) := by
  have key : ∀ (l acc : List (String × ℚ)),
      acc.Pairwise (fun a b => le a b = true) →
      (l.foldl (insertOrd le) acc).Pairwise (fun a b => le a b = true) := by
    intro l
    induction l with
    | nil => exact fun acc h => h
    | cons x l ih =>
      exact fun acc h => ih _ (insertOrd_pairwise htot htr acc x h)
  exact key l [] List.Pairwise.nil

theorem descLe_total : ∀ a b : String × ℚ,
    descLe a b = true ∨ descLe b a = true := by
  intro a b
  simp only [descLe, decide_eq_true_eq]
  exact le_total b.2 a.2

theorem descLe_trans : ∀ a b c : String × ℚ, descLe a b = true →
    descLe b c = true → descLe a c = true := by
  intro a b c
  simp only [descLe, decide_eq_true_eq]
  intro h1 h2
  exact le_trans h2 h1

theorem ascLe_total : ∀ a b : String × ℚ,
    ascLe a b = true ∨ ascLe b a = true := by
  intro a b
  simp only [ascLe, decide_eq_true_eq]
  exact le_total a.2 b.2

theorem ascLe_trans : ∀ a b c : String × ℚ, ascLe a b = true →
    ascLe b c = true → ascLe a c = true := by
  intro a b c
  simp only [ascLe, decide_eq_true_eq]
  intro h1 h2
  exact le_trans h1 h2

/-! ### The greedy sweep: basic equations and termination -/

theorem eps_pos : 0 < eps := by norm_num [eps]

theorem rabs_zero : rabs 0 = 0 := rfl

theorem sweep_nil_left : ∀ (fuel : Nat) (c : NB), sweep fuel [] c = [] := by
  intro fuel c
  cases fuel
  · rfl
  · cases c <;> rfl

theorem sweep_nil_right : ∀ (fuel : Nat) (d : NB), sweep fuel d [] = [] := by
  intro fuel d
  cases fuel
  · rfl
  · cases d <;> rfl

theorem sweep_cons (fuel : Nat) (p : String) (a : ℚ) (ds : NB) (q : String)
    (b : ℚ) (cs : NB) :
    sweep (fuel + 1) ((p, a) :: ds) ((q, b) :: cs)
      = (p, q, min b (-a)) ::
        sweep fuel
          (if rabs (a + min b (-a)) < eps then ds
            else (p, a + min b (-a)) :: ds)
          (if rabs (b - min b (-a)) < eps then cs
            else (q, b - min b (-a)) :: cs) := rfl

/-- In exact arithmetic, each settlement drives at least one of the two
current remainders exactly to `0` (the `min` picks one side). -/
theorem settle_step_exact (a b : ℚ) :
    a + min b (-a) = 0 ∨ b - min b (-a) = 0 := by
  rcases le_total b (-a) with h | h
  · right; rw [min_eq_left h]; ring
  · left; rw [min_eq_right h]; ring

/-- The two lists shrink (jointly) by at least one entry at each step. -/
theorem settle_step_shrink (p q : String) (a b : ℚ) (ds cs : NB) :
    (if rabs (a + min b (-a)) < eps then ds
      else (p, a + min b (-a)) :: ds).length +
    (if rabs (b - min b (-a)) < eps then cs
      else (q, b - min b (-a)) :: cs).length
      ≤ ds.length + cs.length + 1 := by
  have hz : rabs (0 : ℚ) < eps := by rw [rabs_zero]; exact eps_pos
  rcases settle_step_exact a b with h | h
  · rw [h, if_pos hz]
    split <;> simp <;> omega
  · rw [h, if_pos hz]
    split <;> simp <;> omega

theorem sweep_fuel_congr :
    ∀ (f1 f2 : Nat) (d c : NB), d.length + c.length ≤ f1 →
      d.length + c.length ≤ f2 → sweep f1 d c = sweep f2 d c := by
  intro f1
  induction f1 with
  | zero =>
    intro f2 d c h1 _
    have hd : d = [] := List.eq_nil_of_length_eq_zero (by omega)
    subst hd
    rw [sweep_nil_left, sweep_nil_left]
  | succ n ih =>
    intro f2 d c h1 h2
    match d, c with
    | [], _ => rw [sweep_nil_left, sweep_nil_left]
    | _ :: _, [] => rw [sweep_nil_right, sweep_nil_right]
    | (p, a) :: ds, (q, b) :: cs =>
      match f2 with
      | m + 1 =>
        rw [sweep_cons, sweep_cons]
        congr 1
        have hshrink := settle_step_shrink p q a b ds cs
        apply ih
        · simp only [List.length_cons] at h1
          omega
        · simp only [List.length_cons] at h2
          omega

theorem sweep_length :
    ∀ (fuel : Nat) (d c : NB),
      (sweep fuel d c).length ≤ d.length + c.length - 1 := by
  intro fuel
  induction fuel with
  | zero => intro d c; simp [sweep]
  | succ n ih =>
    intro d c
    match d, c with
    | [], _ => rw [sweep_nil_left]; simp
    | _ :: _, [] => rw [sweep_nil_right]; simp
    | (p, a) :: ds, (q, b) :: cs =>
      rw [sweep_cons]
      have hshrink := settle_step_shrink p q a b ds cs
      have hrec := ih
        (if rabs (a + min b (-a)) < eps then ds
          else (p, a + min b (-a)) :: ds)
        (if rabs (b - min b (-a)) < eps then cs
          else (q, b - min b (-a)) :: cs)
      simp only [List.length_cons] at hrec ⊢
      omega

/-! ### The cursor loop is the consuming sweep on the list suffixes -/

theorem settleLoopC_none_left {fuel i j : Nat} {d c : NB}
    (hdi : d.get? i = none) : settleLoopC (fuel + 1) i j d c = [] := by
  unfold settleLoopC
  rw [hdi]

theorem settleLoopC_none_right {fuel i j : Nat} {d c : NB}
    (hcj : c.get? j = none) : settleLoopC (fuel + 1) i j d c = [] := by
  unfold settleLoopC
  rw [hcj]
  cases d.get? i <;> rfl

theorem settleLoopC_step {fuel i j : Nat} {d c : NB} {p q : String}
    {a b : ℚ} (hdi : d.get? i = some (p, a)) (hcj : c.get? j = some (q, b)) :
    settleLoopC (fuel + 1) i j d c
      = (p, q, min b (-a)) ::
        settleLoopC fuel
          (if rabs (a + min b (-a)) < eps then i + 1 else i)
          (if rabs (b - min b (-a)) < eps then j + 1 else j)
          (d.set i (p, a + min b (-a)))
          (c.set j (q, b - min b (-a))) := by
  conv_lhs => unfold settleLoopC
  rw [hdi, hcj]

theorem drop_set_self {l : NB} {i : Nat} {x e : String × ℚ} {rest : NB}
    (h : l.drop i = e :: rest) : (l.set i x).drop i = x :: rest := by
  rw [List.drop_set, if_neg (by omega), Nat.sub_self, h]
  rfl

theorem drop_set_next {l : NB} {i : Nat} (x : String × ℚ) :
    (l.set i x).drop (i + 1) = l.drop (i + 1) := by
  rw [List.drop_set, if_pos (by omega)]

theorem settleLoopC_eq_sweep :
    ∀ (fuel i j : Nat) (d c : NB),
      settleLoopC fuel i j d c = sweep fuel (d.drop i) (c.drop j) := by
  intro fuel
  induction fuel with
  | zero => intro i j d c; rfl
  | succ n ih =>
    intro i j d c
    cases hdi : d.get? i with
    | none =>
      rw [settleLoopC_none_left hdi,
        List.drop_eq_nil_of_le (List.get?_eq_none.mp hdi), sweep_nil_left]
    | some e =>
      cases hcj : c.get? j with
      | none =>
        rw [settleLoopC_none_right hcj,
          List.drop_eq_nil_of_le (List.get?_eq_none.mp hcj), sweep_nil_right]
      | some f =>
        obtain ⟨p, a⟩ := e
        obtain ⟨q, b⟩ := f
        obtain ⟨hid, hgd⟩ := List.get?_eq_some.mp hdi
        obtain ⟨hjc, hgc⟩ := List.get?_eq_some.mp hcj
        have hdrop : d.drop i = (p, a) :: d.drop (i + 1) := by
          rw [List.drop_eq_get_cons hid, hgd]
        have hcropc : c.drop j = (q, b) :: c.drop (j + 1) := by
          rw [List.drop_eq_get_cons hjc, hgc]
        rw [settleLoopC_step hdi hcj, hdrop, hcropc, sweep_cons]
        congr 1
        rw [ih]
        by_cases hadvD : rabs (a + min b (-a)) < eps <;>
          by_cases hadvC : rabs (b - min b (-a)) < eps
        · rw [if_pos hadvD, if_pos hadvC, if_pos hadvD, if_pos hadvC,
            drop_set_next, drop_set_next]
        · rw [if_pos hadvD, if_neg hadvC, if_pos hadvD, if_neg hadvC,
            drop_set_next, drop_set_self hcropc]
        · rw [if_neg hadvD, if_pos hadvC, if_neg hadvD, if_pos hadvC,
            drop_set_self hdrop, drop_set_next]
        · rw [if_neg hadvD, if_neg hadvC, if_neg hadvD, if_neg hadvC,
            drop_set_self hdrop, drop_set_self hcropc]

/-! ### Replay accounting for the sweep -/

theorem paidAmt_cons (p : String) (t : Txn) (ts : List Txn) :
    paidAmt p (t :: ts) = (if t.1 = p then t.2.2 else 0) + paidAmt p ts := rfl

theorem recvAmt_cons (p : String) (t : Txn) (ts : List Txn) :
    recvAmt p (t :: ts) = (if t.2.1 = p then t.2.2 else 0) + recvAmt p ts := rfl

theorem paidAmt_cons_ne {p : String} {t : Txn} {ts : List Txn}
    (h : t.1 ≠ p) : paidAmt p (t :: ts) = paidAmt p ts := by
  rw [paidAmt_cons, if_neg h, zero_add]

theorem recvAmt_cons_ne {p : String} {t : Txn} {ts : List Txn}
    (h : t.2.1 ≠ p) : recvAmt p (t :: ts) = recvAmt p ts := by
  rw [recvAmt_cons, if_neg h, zero_add]

theorem paidAmt_eq_zero {p : String} {ts : List Txn}
    (h : ∀ t ∈ ts, t.1 ≠ p) : paidAmt p ts = 0 := by
  induction ts with
  | nil => rfl
  | cons t ts ih =>
    rw [paidAmt_cons_ne (h t (by simp)), ih (fun s hs => h s (by simp [hs]))]

theorem recvAmt_eq_zero {p : String} {ts : List Txn}
    (h : ∀ t ∈ ts, t.2.1 ≠ p) : recvAmt p ts = 0 := by
  induction ts with
  | nil => rfl
  | cons t ts ih =>
    rw [recvAmt_cons_ne (h t (by simp)), ih (fun s hs => h s (by simp [hs]))]

theorem lt_zero_of_not_small {x : ℚ} (hx : x ≤ 0) (h : ¬ rabs x < eps) :
    x < 0 := by
  rcases lt_or_eq_of_le hx with h1 | h1
  · exact h1
  · exact absurd (by rw [h1, rabs_zero]; exact eps_pos) h

theorem zero_lt_of_not_small {x : ℚ} (hx : 0 ≤ x) (h : ¬ rabs x < eps) :
    0 < x := by
  rcases lt_or_eq_of_le hx with h1 | h1
  · exact h1
  · exact absurd (by rw [← h1, rabs_zero]; exact eps_pos) h

theorem nodup_head_facts {p q : String} {a b : ℚ} {ds cs : NB}
    (hnd : ((((p, a) :: ds) ++ ((q, b) :: cs)).map Prod.fst).Nodup) :
    p ∉ ds.map Prod.fst ∧ ¬ p = q ∧ p ∉ cs.map Prod.fst ∧
      q ∉ ds.map Prod.fst ∧ q ∉ cs.map Prod.fst ∧
      ((ds ++ cs).map Prod.fst).Nodup ∧
      ((ds ++ ((q, b) :: cs)).map Prod.fst).Nodup ∧
      ((((p, a) :: ds) ++ cs).map Prod.fst).Nodup := by
  have sub1 : (ds ++ cs).Sublist (((p, a) :: ds) ++ ((q, b) :: cs)) :=
    (List.sublist_cons_self _ _).append (List.sublist_cons_self _ _)
  have sub2 : (ds ++ ((q, b) :: cs)).Sublist
      (((p, a) :: ds) ++ ((q, b) :: cs)) :=
    (List.sublist_cons_self _ _).append (List.Sublist.refl _)
  have sub3 : (((p, a) :: ds) ++ cs).Sublist
      (((p, a) :: ds) ++ ((q, b) :: cs)) :=
    (List.Sublist.refl _).append (List.sublist_cons_self _ _)
  have hnd1 := List.Nodup.sublist (sub1.map Prod.fst) hnd
  have hnd2 := List.Nodup.sublist (sub2.map Prod.fst) hnd
  have hnd3 := List.Nodup.sublist (sub3.map Prod.fst) hnd
  simp only [List.map_append, List.map_cons, List.nodup_append,
    List.nodup_cons, List.mem_append, List.mem_cons, List.disjoint_left,
    not_or] at hnd
  obtain ⟨⟨hp1, hnds⟩, ⟨hq1, hncs⟩, hdisj⟩ := hnd
  exact ⟨hp1, (hdisj (Or.inl rfl)).1, (hdisj (Or.inl rfl)).2,
    fun h => (hdisj (Or.inr h)).1 rfl, hq1, hnd1, hnd2, hnd3⟩

/-- Main invariant of the greedy sweep, by induction on the fuel:
(A) every emitted transaction names a debtor of `d`, a creditor of `c` and a
positive amount; (B) replay never overshoots (debtor finals stay `≤ 0`,
creditor finals stay `≥ 0`); (C) at termination at least one side is wholly
within `eps` of settled; (D) replay conserves the total value. -/
theorem sweep_invariant :
    ∀ (fuel : Nat) (d c : NB),
      d.length + c.length ≤ fuel →
      ((d ++ c).map Prod.fst).Nodup →
      (∀ e ∈ d, e.2 < 0) → (∀ e ∈ c, 0 < e.2) →
      (∀ t ∈ sweep fuel d c,
        t.1 ∈ d.map Prod.fst ∧ t.2.1 ∈ c.map Prod.fst ∧ 0 < t.2.2) ∧
      (∀ e ∈ d, e.2 + paidAmt e.1 (sweep fuel d c) ≤ 0) ∧
      (∀ e ∈ c, 0 ≤ e.2 - recvAmt e.1 (sweep fuel d c)) ∧
      ((∀ e ∈ d, -eps < e.2 + paidAmt e.1 (sweep fuel d c)) ∨
        (∀ e ∈ c, e.2 - recvAmt e.1 (sweep fuel d c) < eps)) ∧
      ((d.map (fun e => e.2 + paidAmt e.1 (sweep fuel d c))).sum +
        (c.map (fun e => e.2 - recvAmt e.1 (sweep fuel d c))).sum
          = sumValues d + sumValues c) := by
  intro fuel
  induction fuel with
  | zero =>
    intro d c hlen hnd hd hc
    have hd0 : d = [] := List.eq_nil_of_length_eq_zero (by omega)
    have hc0 : c = [] := List.eq_nil_of_length_eq_zero (by omega)
    subst hd0; subst hc0
    exact ⟨by simp [sweep], by simp, by simp, Or.inl (by simp),
      by simp [sweep, sumValues]⟩
  | succ n ih =>
    intro d c hlen hnd hd hc
    obtain _ | ⟨⟨p, a⟩, ds⟩ := d
    · rw [sweep_nil_left]
      refine ⟨by simp, by simp, ?_, Or.inl (by simp), ?_⟩
      · intro e he
        have := hc e he
        rw [show recvAmt e.1 [] = 0 from rfl]
        linarith
      · have hmap : c.map (fun e => e.2 - recvAmt e.1 ([] : List Txn))
            = c.map Prod.snd := by
          apply List.map_congr_left
          intro e _
          rw [show recvAmt e.1 [] = 0 from rfl]
          ring
        simp only [List.map_nil, List.sum_nil, zero_add, hmap, sumValues]
    · obtain _ | ⟨⟨q, b⟩, cs⟩ := c
      · rw [sweep_nil_right]
        refine ⟨by simp, ?_, by simp, Or.inr (by simp), ?_⟩
        · intro e he
          have := hd e he
          rw [show paidAmt e.1 [] = 0 from rfl]
          linarith
        · have hmap : ((p, a) :: ds).map
              (fun e => e.2 + paidAmt e.1 ([] : List Txn))
              = ((p, a) :: ds).map Prod.snd := by
            apply List.map_congr_left
            intro e _
            rw [show paidAmt e.1 [] = 0 from rfl]
            ring
          simp only [List.map_nil, List.sum_nil, add_zero, hmap, sumValues]
      · -- main step
        have ha : a < 0 := hd (p, a) (by simp)
        have hb : 0 < b := hc (q, b) (by simp)
        obtain ⟨hpds, hpq, hpcs, hqds, hqcs, hnd0, hnd2, hnd3⟩ :=
          nodup_head_facts hnd
        have hspos : 0 < min b (-a) := lt_min hb (by linarith)
        have ha2 : a + min b (-a) ≤ 0 := by
          have := min_le_right b (-a); linarith
        have hb2 : 0 ≤ b - min b (-a) := by
          have := min_le_left b (-a); linarith
        have hds : ∀ e ∈ ds, e.2 < 0 :=
          fun e he => hd e (List.mem_cons_of_mem _ he)
        have hcs : ∀ e ∈ cs, 0 < e.2 :=
          fun e he => hc e (List.mem_cons_of_mem _ he)
        have hne_d : ∀ e ∈ ds, p ≠ e.1 := fun e he heq =>
          hpds (heq ▸ List.mem_map_of_mem Prod.fst he)
        have hne_c : ∀ e ∈ cs, q ≠ e.1 := fun e he heq =>
          hqcs (heq ▸ List.mem_map_of_mem Prod.fst he)
        simp only [List.length_cons] at hlen
        rw [sweep_cons]
        by_cases hadvD : rabs (a + min b (-a)) < eps <;>
          by_cases hadvC : rabs (b - min b (-a)) < eps
        · -- both advance: recurse on ds, cs
          rw [if_pos hadvD, if_pos hadvC]
          obtain ⟨A2, B1, B2, C2, D2⟩ :=
            ih ds cs (by omega) hnd0 hds hcs
          have hpaid0 : paidAmt p (sweep n ds cs) = 0 :=
            paidAmt_eq_zero (fun t ht heq => hpds (heq ▸ (A2 t ht).1))
          have hrecv0 : recvAmt q (sweep n ds cs) = 0 :=
            recvAmt_eq_zero (fun t ht heq => hqcs (heq ▸ (A2 t ht).2.1))
          have hmapd : ds.map (fun e =>
                e.2 + paidAmt e.1 ((p, q, min b (-a)) :: sweep n ds cs))
              = ds.map (fun e => e.2 + paidAmt e.1 (sweep n ds cs)) :=
            List.map_congr_left (fun e he => by
              rw [paidAmt_cons_ne (hne_d e he)])
          have hmapc : cs.map (fun e =>
                e.2 - recvAmt e.1 ((p, q, min b (-a)) :: sweep n ds cs))
              = cs.map (fun e => e.2 - recvAmt e.1 (sweep n ds cs)) :=
            List.map_congr_left (fun e he => by
              rw [recvAmt_cons_ne (hne_c e he)])
          have hD2 : -eps < a + min b (-a) := (rabs_lt_iff.mp hadvD).1
          have hC2 : b - min b (-a) < eps := (rabs_lt_iff.mp hadvC).2
          refine ⟨?_, ?_, ?_, ?_, ?_⟩
          · intro t ht
            rcases List.mem_cons.mp ht with rfl | ht
            · exact ⟨by simp, by simp, hspos⟩
            · exact ⟨by simp [(A2 t ht).1], by simp [(A2 t ht).2.1],
                (A2 t ht).2.2⟩
          · intro e he
            rcases List.mem_cons.mp he with rfl | he
            · have hh : paidAmt p ((p, q, min b (-a)) :: sweep n ds cs)
                  = min b (-a) + paidAmt p (sweep n ds cs) := by
                rw [paidAmt_cons, if_pos rfl]
              show a + paidAmt p ((p, q, min b (-a)) :: sweep n ds cs) ≤ 0
              rw [hh, hpaid0]
              linarith
            · show e.2 + paidAmt e.1 ((p, q, min b (-a)) :: sweep n ds cs) ≤ 0
              rw [paidAmt_cons_ne (hne_d e he)]
              exact B1 e he
          · intro e he
            rcases List.mem_cons.mp he with rfl | he
            · have hh : recvAmt q ((p, q, min b (-a)) :: sweep n ds cs)
                  = min b (-a) + recvAmt q (sweep n ds cs) := by
                rw [recvAmt_cons, if_pos rfl]
              show 0 ≤ b - recvAmt q ((p, q, min b (-a)) :: sweep n ds cs)
              rw [hh, hrecv0]
              linarith
            · show 0 ≤ e.2 - recvAmt e.1 ((p, q, min b (-a)) :: sweep n ds cs)
              rw [recvAmt_cons_ne (hne_c e he)]
              exact B2 e he
          · rcases C2 with CL | CR
            · left
              intro e he
              rcases List.mem_cons.mp he with rfl | he
              · have hh : paidAmt p ((p, q, min b (-a)) :: sweep n ds cs)
                    = min b (-a) + paidAmt p (sweep n ds cs) := by
                  rw [paidAmt_cons, if_pos rfl]
                show -eps < a + paidAmt p ((p, q, min b (-a)) :: sweep n ds cs)
                rw [hh, hpaid0]
                linarith
              · show -eps < e.2 + paidAmt e.1
                    ((p, q, min b (-a)) :: sweep n ds cs)
                rw [paidAmt_cons_ne (hne_d e he)]
                exact CL e he
            · right
              intro e he
              rcases List.mem_cons.mp he with rfl | he
              · have hh : recvAmt q ((p, q, min b (-a)) :: sweep n ds cs)
                    = min b (-a) + recvAmt q (sweep n ds cs) := by
                  rw [recvAmt_cons, if_pos rfl]
                show b - recvAmt q ((p, q, min b (-a)) :: sweep n ds cs) < eps
                rw [hh, hrecv0]
                linarith
              · show e.2 - recvAmt e.1
                    ((p, q, min b (-a)) :: sweep n ds cs) < eps
                rw [recvAmt_cons_ne (hne_c e he)]
                exact CR e he
          · have hheadd : paidAmt p ((p, q, min b (-a)) :: sweep n ds cs)
                = min b (-a) + paidAmt p (sweep n ds cs) := by
              rw [paidAmt_cons, if_pos rfl]
            have hheadc : recvAmt q ((p, q, min b (-a)) :: sweep n ds cs)
                = min b (-a) + recvAmt q (sweep n ds cs) := by
              rw [recvAmt_cons, if_pos rfl]
            simp only [List.map_cons, List.sum_cons, sumValues_cons, hmapd,
              hmapc, hheadd, hheadc, hpaid0, hrecv0]
            linarith [D2]
        · -- debtor fully settled, creditor keeps a remainder
          rw [if_pos hadvD, if_neg hadvC]
          have hb2' : 0 < b - min b (-a) := zero_lt_of_not_small hb2 hadvC
          have hnd2' :
              ((ds ++ ((q, b - min b (-a)) :: cs)).map Prod.fst).Nodup := by
            simp only [List.map_append, List.map_cons] at hnd2 ⊢
            exact hnd2
          obtain ⟨A2, B1, B2, C2, D2⟩ :=
            ih ds ((q, b - min b (-a)) :: cs)
              (by simp only [List.length_cons]; omega) hnd2' hds
              (by
                intro e he
                rcases List.mem_cons.mp he with rfl | he
                · exact hb2'
                · exact hcs e he)
          have hpaid0 :
              paidAmt p (sweep n ds ((q, b - min b (-a)) :: cs)) = 0 :=
            paidAmt_eq_zero (fun t ht heq => hpds (heq ▸ (A2 t ht).1))
          have hmapd : ds.map (fun e => e.2 + paidAmt e.1
                ((p, q, min b (-a)) :: sweep n ds ((q, b - min b (-a)) :: cs)))
              = ds.map (fun e => e.2 + paidAmt e.1
                (sweep n ds ((q, b - min b (-a)) :: cs))) :=
            List.map_congr_left (fun e he => by
              rw [paidAmt_cons_ne (hne_d e he)])
          have hmapc : cs.map (fun e => e.2 - recvAmt e.1
                ((p, q, min b (-a)) :: sweep n ds ((q, b - min b (-a)) :: cs)))
              = cs.map (fun e => e.2 - recvAmt e.1
                (sweep n ds ((q, b - min b (-a)) :: cs))) :=
            List.map_congr_left (fun e he => by
              rw [recvAmt_cons_ne (hne_c e he)])
          have hD2 : -eps < a + min b (-a) := (rabs_lt_iff.mp hadvD).1
          have hheadc : ∀ ts : List Txn,
              b - recvAmt q ((p, q, min b (-a)) :: ts)
                = (b - min b (-a)) - recvAmt q ts := by
            intro ts
            rw [recvAmt_cons, if_pos rfl]
            ring
          refine ⟨?_, ?_, ?_, ?_, ?_⟩
          · intro t ht
            rcases List.mem_cons.mp ht with rfl | ht
            · exact ⟨by simp, by simp, hspos⟩
            · refine ⟨by simp [(A2 t ht).1], ?_, (A2 t ht).2.2⟩
              have hmem := (A2 t ht).2.1
              simp only [List.map_cons] at hmem ⊢
              exact hmem
          · intro e he
            rcases List.mem_cons.mp he with rfl | he
            · have hh : paidAmt p ((p, q, min b (-a)) ::
                    sweep n ds ((q, b - min b (-a)) :: cs))
                  = min b (-a) + paidAmt p
                    (sweep n ds ((q, b - min b (-a)) :: cs)) := by
                rw [paidAmt_cons, if_pos rfl]
              show a + paidAmt p ((p, q, min b (-a)) ::
                  sweep n ds ((q, b - min b (-a)) :: cs)) ≤ 0
              rw [hh, hpaid0]
              linarith
            · show e.2 + paidAmt e.1 ((p, q, min b (-a)) ::
                  sweep n ds ((q, b - min b (-a)) :: cs)) ≤ 0
              rw [paidAmt_cons_ne (hne_d e he)]
              exact B1 e he
          · intro e he
            rcases List.mem_cons.mp he with rfl | he
            · have hB2 : 0 ≤ (b - min b (-a)) - recvAmt q
                  (sweep n ds ((q, b - min b (-a)) :: cs)) :=
                B2 (q, b - min b (-a)) (by simp)
              show 0 ≤ b - recvAmt q ((p, q, min b (-a)) ::
                  sweep n ds ((q, b - min b (-a)) :: cs))
              rw [hheadc]
              exact hB2
            · show 0 ≤ e.2 - recvAmt e.1 ((p, q, min b (-a)) ::
                  sweep n ds ((q, b - min b (-a)) :: cs))
              rw [recvAmt_cons_ne (hne_c e he)]
              exact B2 e (List.mem_cons_of_mem _ he)
          · rcases C2 with CL | CR
            · left
              intro e he
              rcases List.mem_cons.mp he with rfl | he
              · have hh : paidAmt p ((p, q, min b (-a)) ::
                      sweep n ds ((q, b - min b (-a)) :: cs))
                    = min b (-a) + paidAmt p
                      (sweep n ds ((q, b - min b (-a)) :: cs)) := by
                  rw [paidAmt_cons, if_pos rfl]
                show -eps < a + paidAmt p ((p, q, min b (-a)) ::
                    sweep n ds ((q, b - min b (-a)) :: cs))
                rw [hh, hpaid0]
                linarith
              · show -eps < e.2 + paidAmt e.1 ((p, q, min b (-a)) ::
                    sweep n ds ((q, b - min b (-a)) :: cs))
                rw [paidAmt_cons_ne (hne_d e he)]
                exact CL e he
            · right
              intro e he
              rcases List.mem_cons.mp he with rfl | he
              · have hCR : (b - min b (-a)) - recvAmt q
                    (sweep n ds ((q, b - min b (-a)) :: cs)) < eps :=
                  CR (q, b - min b (-a)) (by simp)
                show b - recvAmt q ((p, q, min b (-a)) ::
                    sweep n ds ((q, b - min b (-a)) :: cs)) < eps
                rw [hheadc]
                exact hCR
              · show e.2 - recvAmt e.1 ((p, q, min b (-a)) ::
                    sweep n ds ((q, b - min b (-a)) :: cs)) < eps
                rw [recvAmt_cons_ne (hne_c e he)]
                exact CR e (List.mem_cons_of_mem _ he)
          · have hheadd : paidAmt p ((p, q, min b (-a)) ::
                  sweep n ds ((q, b - min b (-a)) :: cs))
                = min b (-a) + paidAmt p
                  (sweep n ds ((q, b - min b (-a)) :: cs)) := by
              rw [paidAmt_cons, if_pos rfl]
            simp only [List.map_cons, List.sum_cons, sumValues_cons, hmapd,
              hmapc, hheadd, hheadc, hpaid0] at D2 ⊢
            linarith [D2]
        · -- creditor fully settled, debtor keeps a remainder
          rw [if_neg hadvD, if_pos hadvC]
          have ha2' : a + min b (-a) < 0 := lt_zero_of_not_small ha2 hadvD
          have hnd3' :
              ((((p, a + min b (-a)) :: ds) ++ cs).map Prod.fst).Nodup := by
            simp only [List.map_append, List.map_cons] at hnd3 ⊢
            exact hnd3
          obtain ⟨A2, B1, B2, C2, D2⟩ :=
            ih ((p, a + min b (-a)) :: ds) cs
              (by simp only [List.length_cons]; omega) hnd3'
              (by
                intro e he
                rcases List.mem_cons.mp he with rfl | he
                · exact ha2'
                · exact hds e he)
              hcs
          have hrecv0 :
              recvAmt q (sweep n ((p, a + min b (-a)) :: ds) cs) = 0 :=
            recvAmt_eq_zero (fun t ht heq => hqcs (heq ▸ (A2 t ht).2.1))
          have hmapd : ds.map (fun e => e.2 + paidAmt e.1
                ((p, q, min b (-a)) :: sweep n ((p, a + min b (-a)) :: ds) cs))
              = ds.map (fun e => e.2 + paidAmt e.1
                (sweep n ((p, a + min b (-a)) :: ds) cs)) :=
            List.map_congr_left (fun e he => by
              rw [paidAmt_cons_ne (hne_d e he)])
          have hmapc : cs.map (fun e => e.2 - recvAmt e.1
                ((p, q, min b (-a)) :: sweep n ((p, a + min b (-a)) :: ds) cs))
              = cs.map (fun e => e.2 - recvAmt e.1
                (sweep n ((p, a + min b (-a)) :: ds) cs)) :=
            List.map_congr_left (fun e he => by
              rw [recvAmt_cons_ne (hne_c e he)])
          have hC2 : b - min b (-a) < eps := (rabs_lt_iff.mp hadvC).2
          have hheadd : ∀ ts : List Txn,
              a + paidAmt p ((p, q, min b (-a)) :: ts)
                = (a + min b (-a)) + paidAmt p ts := by
            intro ts
            rw [paidAmt_cons, if_pos rfl]
            ring
          refine ⟨?_, ?_, ?_, ?_, ?_⟩
          · intro t ht
            rcases List.mem_cons.mp ht with rfl | ht
            · exact ⟨by simp, by simp, hspos⟩
            · refine ⟨?_, by simp [(A2 t ht).2.1], (A2 t ht).2.2⟩
              have hmem := (A2 t ht).1
              simp only [List.map_cons] at hmem ⊢
              exact hmem
          · intro e he
            rcases List.mem_cons.mp he with rfl | he
            · have hB1 : (a + min b (-a)) + paidAmt p
                  (sweep n ((p, a + min b (-a)) :: ds) cs) ≤ 0 :=
                B1 (p, a + min b (-a)) (by simp)
              show a + paidAmt p ((p, q, min b (-a)) ::
                  sweep n ((p, a + min b (-a)) :: ds) cs) ≤ 0
              rw [hheadd]
              exact hB1
            · show e.2 + paidAmt e.1 ((p, q, min b (-a)) ::
                  sweep n ((p, a + min b (-a)) :: ds) cs) ≤ 0
              rw [paidAmt_cons_ne (hne_d e he)]
              exact B1 e (List.mem_cons_of_mem _ he)
          · intro e he
            rcases List.mem_cons.mp he with rfl | he
            · have hh : recvAmt q ((p, q, min b (-a)) ::
                    sweep n ((p, a + min b (-a)) :: ds) cs)
                  = min b (-a) + recvAmt q
                    (sweep n ((p, a + min b (-a)) :: ds) cs) := by
                rw [recvAmt_cons, if_pos rfl]
              show 0 ≤ b - recvAmt q ((p, q, min b (-a)) ::
                  sweep n ((p, a + min b (-a)) :: ds) cs)
              rw [hh, hrecv0]
              linarith
            · show 0 ≤ e.2 - recvAmt e.1 ((p, q, min b (-a)) ::
                  sweep n ((p, a + min b (-a)) :: ds) cs)
              rw [recvAmt_cons_ne (hne_c e he)]
              exact B2 e he
          · rcases C2 with CL | CR
            · left
              intro e he
              rcases List.mem_cons.mp he with rfl | he
              · have hCL : -eps < (a + min b (-a)) + paidAmt p
                    (sweep n ((p, a + min b (-a)) :: ds) cs) :=
                  CL (p, a + min b (-a)) (by simp)
                show -eps < a + paidAmt p ((p, q, min b (-a)) ::
                    sweep n ((p, a + min b (-a)) :: ds) cs)
                rw [hheadd]
                exact hCL
              · show -eps < e.2 + paidAmt e.1 ((p, q, min b (-a)) ::
                    sweep n ((p, a + min b (-a)) :: ds) cs)
                rw [paidAmt_cons_ne (hne_d e he)]
                exact CL e (List.mem_cons_of_mem _ he)
            · right
              intro e he
              rcases List.mem_cons.mp he with rfl | he
              · have hh : recvAmt q ((p, q, min b (-a)) ::
                    sweep n ((p, a + min b (-a)) :: ds) cs)
                  = min b (-a) + recvAmt q
                    (sweep n ((p, a + min b (-a)) :: ds) cs) := by
                  rw [recvAmt_cons, if_pos rfl]
                show b - recvAmt q ((p, q, min b (-a)) ::
                    sweep n ((p, a + min b (-a)) :: ds) cs) < eps
                rw [hh, hrecv0]
                linarith
              · show e.2 - recvAmt e.1 ((p, q, min b (-a)) ::
                    sweep n ((p, a + min b (-a)) :: ds) cs) < eps
                rw [recvAmt_cons_ne (hne_c e he)]
                exact CR e he
          · have hheadc : recvAmt q ((p, q, min b (-a)) ::
                  sweep n ((p, a + min b (-a)) :: ds) cs)
                = min b (-a) + recvAmt q
                  (sweep n ((p, a + min b (-a)) :: ds) cs) := by
              rw [recvAmt_cons, if_pos rfl]
            simp only [List.map_cons, List.sum_cons, sumValues_cons, hmapd,
              hmapc, hheadd, hheadc, hrecv0] at D2 ⊢
            linarith [D2]
        · exact absurd (settle_step_exact a b) (by
            push_neg
            constructor
            · intro h0
              exact absurd (by rw [h0, rabs_zero]; exact eps_pos) hadvD
            · intro h0
              exact absurd (by rw [h0, rabs_zero]; exact eps_pos) hadvC)

theorem le_rabs (x : ℚ) : x ≤ rabs x := by
  unfold rabs; split <;> linarith

theorem neg_le_rabs (x : ℚ) : -x ≤ rabs x := by
  unfold rabs; split <;> linarith

theorem list_sum_nonpos {l : List ℚ} (h : ∀ x ∈ l, x ≤ 0) : l.sum ≤ 0 := by
  induction l with
  | nil => simp
  | cons x l ih =>
    rw [List.sum_cons]
    have h1 := h x (by simp)
    have h2 := ih (fun z hz => h z (by simp [hz]))
    linarith

theorem list_sum_nonneg {l : List ℚ} (h : ∀ x ∈ l, 0 ≤ x) : 0 ≤ l.sum := by
  induction l with
  | nil => simp
  | cons x l ih =>
    rw [List.sum_cons]
    have h1 := h x (by simp)
    have h2 := ih (fun z hz => h z (by simp [hz]))
    linarith

theorem list_sum_le_of_mem {l : List ℚ} {y : ℚ} (h : ∀ x ∈ l, x ≤ 0)
    (hy : y ∈ l) : l.sum ≤ y := by
  induction l with
  | nil => simp at hy
  | cons x l ih =>
    rw [List.sum_cons]
    rcases List.mem_cons.mp hy with rfl | hy
    · have := list_sum_nonpos (l := l) (fun z hz => h z (by simp [hz]))
      linarith
    · have hx0 := h x (by simp)
      have := ih (fun z hz => h z (by simp [hz])) hy
      linarith

theorem list_le_sum_of_mem {l : List ℚ} {y : ℚ} (h : ∀ x ∈ l, 0 ≤ x)
    (hy : y ∈ l) : y ≤ l.sum := by
  induction l with
  | nil => simp at hy
  | cons x l ih =>
    rw [List.sum_cons]
    rcases List.mem_cons.mp hy with rfl | hy
    · have := list_sum_nonneg (l := l) (fun z hz => h z (by simp [hz]))
      linarith
    · have hx0 := h x (by simp)
      have := ih (fun z hz => h z (by simp [hz])) hy
      linarith

theorem list_sum_le_len_mul {l : List ℚ} {b : ℚ} (h : ∀ x ∈ l, x ≤ b) :
    l.sum ≤ (l.length : ℚ) * b := by
  induction l with
  | nil => simp
  | cons x l ih =>
    rw [List.sum_cons, List.length_cons]
    have hx := h x (by simp)
    have := ih (fun z hz => h z (by simp [hz]))
    push_cast
    linarith

theorem list_len_mul_le_sum {l : List ℚ} {b : ℚ} (h : ∀ x ∈ l, b ≤ x) :
    (l.length : ℚ) * b ≤ l.sum := by
  induction l with
  | nil => simp
  | cons x l ih =>
    rw [List.sum_cons, List.length_cons]
    have hx := h x (by simp)
    have := ih (fun z hz => h z (by simp [hz]))
    push_cast
    linarith

/-- Final residual bound for the sweep: after replaying every emitted
transaction, every debtor and creditor is within
`|total| + (number of participants) * eps` of zero. -/
theorem sweep_fin_bound (fuel : Nat) (d c : NB)
    (hlen : d.length + c.length ≤ fuel)
    (hnd : ((d ++ c).map Prod.fst).Nodup)
    (hd : ∀ e ∈ d, e.2 < 0) (hc : ∀ e ∈ c, 0 < e.2) :
    (∀ e ∈ d, rabs (e.2 + paidAmt e.1 (sweep fuel d c))
      ≤ rabs (sumValues d + sumValues c)
        + ((d.length : ℚ) + (c.length : ℚ)) * eps) ∧
    (∀ e ∈ c, rabs (e.2 - recvAmt e.1 (sweep fuel d c))
      ≤ rabs (sumValues d + sumValues c)
        + ((d.length : ℚ) + (c.length : ℚ)) * eps) := by
  obtain ⟨A2, B1, B2, C2, D2⟩ := sweep_invariant fuel d c hlen hnd hd hc
  have hSd_nonpos :
      (d.map (fun e => e.2 + paidAmt e.1 (sweep fuel d c))).sum ≤ 0 := by
    have := list_sum_le_len_mul (l := d.map
        (fun e => e.2 + paidAmt e.1 (sweep fuel d c))) (b := 0)
      (by
        intro x hx
        rcases List.mem_map.mp hx with ⟨e, he, rfl⟩
        exact B1 e he)
    simpa using this
  have hSc_nonneg :
      0 ≤ (c.map (fun e => e.2 - recvAmt e.1 (sweep fuel d c))).sum := by
    have := list_len_mul_le_sum (l := c.map
        (fun e => e.2 - recvAmt e.1 (sweep fuel d c))) (b := 0)
      (by
        intro x hx
        rcases List.mem_map.mp hx with ⟨e, he, rfl⟩
        exact B2 e he)
    simpa using this
  rcases C2 with CL | CR
  · -- every debtor ends within eps; creditors are bounded through the sum
    have hSd_lower :
        -((d.length : ℚ) * eps)
          ≤ (d.map (fun e => e.2 + paidAmt e.1 (sweep fuel d c))).sum := by
      have := list_len_mul_le_sum (l := d.map
          (fun e => e.2 + paidAmt e.1 (sweep fuel d c))) (b := -eps)
        (by
          intro x hx
          rcases List.mem_map.mp hx with ⟨e, he, rfl⟩
          exact le_of_lt (CL e he))
      rw [List.length_map] at this
      linarith
    constructor
    · intro e he
      have h1 : -eps < e.2 + paidAmt e.1 (sweep fuel d c) := CL e he
      have h2 : e.2 + paidAmt e.1 (sweep fuel d c) ≤ 0 := B1 e he
      have hd1 : (1 : ℚ) ≤ (d.length : ℚ) := by
        have : 1 ≤ d.length := List.length_pos.mpr (by
          intro h0
          rw [h0] at he
          simp at he)
        exact_mod_cast this
      have heps : eps ≤ ((d.length : ℚ) + (c.length : ℚ)) * eps := by
        have hc0 : (0 : ℚ) ≤ (c.length : ℚ) := by positivity
        nlinarith [eps_pos]
      have hr := rabs_nonneg (sumValues d + sumValues c)
      rw [rabs_of_nonpos h2]
      linarith
    · intro e he
      have h1 : 0 ≤ e.2 - recvAmt e.1 (sweep fuel d c) := B2 e he
      have h2 : e.2 - recvAmt e.1 (sweep fuel d c)
          ≤ (c.map (fun e => e.2 - recvAmt e.1 (sweep fuel d c))).sum :=
        list_le_sum_of_mem
          (by
            intro x hx
            rcases List.mem_map.mp hx with ⟨e2, he2, rfl⟩
            exact B2 e2 he2)
          (List.mem_map_of_mem _ he)
      have hS := le_rabs (sumValues d + sumValues c)
      have hceps : (0 : ℚ) ≤ (c.length : ℚ) * eps := by
        have := eps_pos
        positivity
      rw [rabs_of_nonneg h1]
      nlinarith [D2, hSd_lower]
  · -- every creditor ends within eps; debtors are bounded through the sum
    have hSc_upper :
        (c.map (fun e => e.2 - recvAmt e.1 (sweep fuel d c))).sum
          ≤ (c.length : ℚ) * eps := by
      have := list_sum_le_len_mul (l := c.map
          (fun e => e.2 - recvAmt e.1 (sweep fuel d c))) (b := eps)
        (by
          intro x hx
          rcases List.mem_map.mp hx with ⟨e, he, rfl⟩
          exact le_of_lt (CR e he))
      rw [List.length_map] at this
      linarith
    constructor
    · intro e he
      have h2 : e.2 + paidAmt e.1 (sweep fuel d c) ≤ 0 := B1 e he
      have h3 : (d.map (fun e => e.2 + paidAmt e.1 (sweep fuel d c))).sum
          ≤ e.2 + paidAmt e.1 (sweep fuel d c) :=
        list_sum_le_of_mem
          (by
            intro x hx
            rcases List.mem_map.mp hx with ⟨e2, he2, rfl⟩
            exact B1 e2 he2)
          (List.mem_map_of_mem _ he)
      have hS := neg_le_rabs (sumValues d + sumValues c)
      have hdeps : (0 : ℚ) ≤ (d.length : ℚ) * eps := by
        have := eps_pos
        positivity
      rw [rabs_of_nonpos h2]
      nlinarith [D2, hSc_upper]
    · intro e he
      have h1 : 0 ≤ e.2 - recvAmt e.1 (sweep fuel d c) := B2 e he
      have h2 : e.2 - recvAmt e.1 (sweep fuel d c) < eps := CR e he
      have hc1 : (1 : ℚ) ≤ (c.length : ℚ) := by
        have : 1 ≤ c.length := List.length_pos.mpr (by
          intro h0
          rw [h0] at he
          simp at he)
        exact_mod_cast this
      have heps : eps ≤ ((d.length : ℚ) + (c.length : ℚ)) * eps := by
        have hd0 : (0 : ℚ) ≤ (d.length : ℚ) := by positivity
        nlinarith [eps_pos]
      have hr := rabs_nonneg (sumValues d + sumValues c)
      rw [rabs_of_nonneg h1]
      linarith

/-! ### Bridging `settle_debts` to the sweep over the sorted partitions -/

theorem settle_debts_eq_sweep (nb : NB) :
    settle_debts nb
      = sweep ((debtorsOf nb).length + (creditorsOf nb).length)
        (debtorsOf nb) (creditorsOf nb) := by
  simp only [settle_debts, debtorsOf, creditorsOf]
  rw [settleLoopC_eq_sweep, List.drop_zero, List.drop_zero]

theorem mem_debtorsOf {nb : NB} {e : String × ℚ} :
    e ∈ debtorsOf nb ↔ e ∈ nb ∧ e.2 < -eps := by
  unfold debtorsOf
  rw [(sortStable_perm ascLe (nb.filter isDebtor)).mem_iff,
    List.mem_filter]
  simp [isDebtor]

theorem mem_creditorsOf {nb : NB} {e : String × ℚ} :
    e ∈ creditorsOf nb ↔ e ∈ nb ∧ eps < e.2 := by
  unfold creditorsOf
  rw [(sortStable_perm descLe (nb.filter isCreditor)).mem_iff,
    List.mem_filter]
  simp [isCreditor]

theorem debtorsOf_length (nb : NB) :
    (debtorsOf nb).length = (nb.filter isDebtor).length :=
  (sortStable_perm ascLe (nb.filter isDebtor)).length_eq

theorem creditorsOf_length (nb : NB) :
    (creditorsOf nb).length = (nb.filter isCreditor).length :=
  (sortStable_perm descLe (nb.filter isCreditor)).length_eq

theorem debtorsOf_sum (nb : NB) :
    sumValues (debtorsOf nb) = sumValues (nb.filter isDebtor) :=
  ((sortStable_perm ascLe (nb.filter isDebtor)).map Prod.snd).sum_eq

theorem creditorsOf_sum (nb : NB) :
    sumValues (creditorsOf nb) = sumValues (nb.filter isCreditor) :=
  ((sortStable_perm descLe (nb.filter isCreditor)).map Prod.snd).sum_eq

theorem entries_eq_of_nodup {nb : NB} (hnd : (nb.map Prod.fst).Nodup)
    {e1 e2 : String × ℚ} (h1 : e1 ∈ nb) (h2 : e2 ∈ nb) (h : e1.1 = e2.1) :
    e1 = e2 := by
  have g1 : dictGet nb e1.1 = some e1.2 := by
    apply mem_dictGet hnd
    rw [Prod.mk.eta]
    exact h1
  have g2 : dictGet nb e2.1 = some e2.2 := by
    apply mem_dictGet hnd
    rw [Prod.mk.eta]
    exact h2
  rw [h, g2] at g1
  have hsnd : e2.2 = e1.2 := Option.some.injEq _ _ ▸ g1
  calc e1 = (e1.1, e1.2) := by rw [Prod.mk.eta]
    _ = (e2.1, e2.2) := by rw [h, hsnd]
    _ = e2 := by rw [Prod.mk.eta]

theorem settle_names_nodup {nb : NB} (hnd : (nb.map Prod.fst).Nodup) :
    (((debtorsOf nb) ++ (creditorsOf nb)).map Prod.fst).Nodup := by
  have permn : (((debtorsOf nb) ++ (creditorsOf nb)).map Prod.fst).Perm
      (((nb.filter isDebtor) ++ (nb.filter isCreditor)).map Prod.fst) := by
    simp only [List.map_append]
    exact ((sortStable_perm ascLe (nb.filter isDebtor)).map Prod.fst).append
      ((sortStable_perm descLe (nb.filter isCreditor)).map Prod.fst)
  rw [permn.nodup_iff]
  simp only [List.map_append]
  rw [List.nodup_append]
  refine ⟨?_, ?_, ?_⟩
  · exact List.Nodup.sublist ((List.filter_sublist nb).map Prod.fst) hnd
  · exact List.Nodup.sublist
      ((List.filter_sublist nb).map Prod.fst) hnd
  · intro x hx1 hx2
    rcases List.mem_map.mp hx1 with ⟨e1, he1, rfl⟩
    rcases List.mem_map.mp hx2 with ⟨e2, he2, hx⟩
    rcases List.mem_filter.mp he1 with ⟨hm1, hp1⟩
    rcases List.mem_filter.mp he2 with ⟨hm2, hp2⟩
    have he : e2 = e1 := entries_eq_of_nodup hnd hm2 hm1 hx
    subst he
    simp only [isDebtor, isCreditor, decide_eq_true_eq] at hp1 hp2
    have := eps_pos
    linarith

theorem filter_three_length (nb : NB) :
    (nb.filter isDebtor).length + (nb.filter isCreditor).length
      + (nb.filter (fun e => !(isDebtor e || isCreditor e))).length
      = nb.length := by
  induction nb with
  | nil => rfl
  | cons e nb ih =>
    by_cases hD : isDebtor e = true <;> by_cases hC : isCreditor e = true
    · exfalso
      simp only [isDebtor, isCreditor, decide_eq_true_eq] at hD hC
      have := eps_pos
      linarith
    · simp only [List.filter_cons, hD, hC, Bool.false_eq_true, if_true,
        if_false, Bool.or_false, Bool.not_true, List.length_cons]
      omega
    · simp only [List.filter_cons, hD, hC, Bool.false_eq_true, if_true,
        if_false, Bool.false_or, Bool.not_true, List.length_cons]
      omega
    · have hD' : isDebtor e = false := by
        cases h : isDebtor e
        · rfl
        · exact absurd h hD
      have hC' : isCreditor e = false := by
        cases h : isCreditor e
        · rfl
        · exact absurd h hC
      simp only [List.filter_cons, hD', hC', Bool.false_eq_true, if_false,
        Bool.or_false, Bool.not_false, if_true, List.length_cons]
      omega

theorem filter_three_sum (nb : NB) :
    sumValues (nb.filter isDebtor) + sumValues (nb.filter isCreditor)
      + sumValues (nb.filter (fun e => !(isDebtor e || isCreditor e)))
      = sumValues nb := by
  induction nb with
  | nil => simp [sumValues]
  | cons e nb ih =>
    by_cases hD : isDebtor e = true <;> by_cases hC : isCreditor e = true
    · exfalso
      simp only [isDebtor, isCreditor, decide_eq_true_eq] at hD hC
      have := eps_pos
      linarith
    · simp only [List.filter_cons, hD, hC, Bool.false_eq_true, if_true,
        if_false, Bool.or_false, Bool.not_true, sumValues_cons]
      linarith
    · simp only [List.filter_cons, hD, hC, Bool.false_eq_true, if_true,
        if_false, Bool.false_or, Bool.not_true, sumValues_cons]
      linarith
    · have hD' : isDebtor e = false := by
        cases h : isDebtor e
        · rfl
        · exact absurd h hD
      have hC' : isCreditor e = false := by
        cases h : isCreditor e
        · rfl
        · exact absurd h hC
      simp only [List.filter_cons, hD', hC', Bool.false_eq_true, if_false,
        Bool.or_false, Bool.not_false, if_true, sumValues_cons]
      linarith

theorem near_zero_sum_bound (nb : NB) :
    rabs (sumValues (nb.filter (fun e => !(isDebtor e || isCreditor e))))
      ≤ ((nb.filter (fun e => !(isDebtor e || isCreditor e))).length : ℚ)
        * eps := by
  have hbdd : ∀ x ∈ (nb.filter
      (fun e => !(isDebtor e || isCreditor e))).map Prod.snd,
      -eps ≤ x ∧ x ≤ eps := by
    intro x hx
    rcases List.mem_map.mp hx with ⟨e, he, rfl⟩
    rcases List.mem_filter.mp he with ⟨_, hp⟩
    simp only [Bool.not_eq_true', Bool.or_eq_false_iff, isDebtor,
      isCreditor, decide_eq_false_iff_not, not_lt] at hp
    exact ⟨hp.1, hp.2⟩
  rw [rabs_le_iff]
  constructor
  · have := list_len_mul_le_sum (l := (nb.filter
        (fun e => !(isDebtor e || isCreditor e))).map Prod.snd) (b := -eps)
      (fun x hx => (hbdd x hx).1)
    rw [List.length_map] at this
    unfold sumValues
    linarith
  · have := list_sum_le_len_mul (l := (nb.filter
        (fun e => !(isDebtor e || isCreditor e))).map Prod.snd) (b := eps)
      (fun x hx => (hbdd x hx).2)
    rw [List.length_map] at this
    unfold sumValues
    linarith

theorem rabs_neg (x : ℚ) : rabs (-x) = rabs x := by
  unfold rabs
  rcases lt_trichotomy x 0 with h | h | h
  · rw [if_neg (by linarith), if_pos h]
  · simp [h]
  · rw [if_pos (by linarith), if_neg (by linarith)]
    ring

theorem debtorsOf_neg (nb : NB) : ∀ e ∈ debtorsOf nb, e.2 < 0 := by
  intro e he
  have h := (mem_debtorsOf.mp he).2
  have := eps_pos
  linarith

theorem creditorsOf_pos (nb : NB) : ∀ e ∈ creditorsOf nb, 0 < e.2 := by
  intro e he
  have h := (mem_creditorsOf.mp he).2
  have := eps_pos
  linarith

theorem collectStep_congr {r1 r2 : ExpenseRow} (hp : r1.payer = r2.payer)
    (hpa : r1.participants = r2.participants) (acc : List String) :
    collectStep acc r1 = collectStep acc r2 := by
  unfold collectStep
  rw [hp, hpa]

theorem applyExpense_congr {r1 r2 : ExpenseRow} (hp : r1.payer = r2.payer)
    (ha : r1.amount = r2.amount) (hpa : r1.participants = r2.participants)
    (m : NB) : applyExpense m r1 = applyExpense m r2 := by
  unfold applyExpense expShare
  rw [hp, ha, hpa]

theorem foldl_collectStep_congr {es1 es2 : List ExpenseRow}
    (h : List.Forall₂ (fun r1 r2 => r1.date = r2.date ∧
      r1.payer = r2.payer ∧ r1.amount = r2.amount ∧
      r1.participants = r2.participants ∧ r1.notes = r2.notes) es1 es2) :
    ∀ acc : List String,
      es1.foldl collectStep acc = es2.foldl collectStep acc := by
  induction h with
  | nil => intro acc; rfl
  | cons hr hrest ih =>
    intro acc
    simp only [List.foldl_cons]
    rw [collectStep_congr hr.2.1 hr.2.2.2.1]
    exact ih _

theorem foldlM_applyExpense_congr {es1 es2 : List ExpenseRow}
    (h : List.Forall₂ (fun r1 r2 => r1.date = r2.date ∧
      r1.payer = r2.payer ∧ r1.amount = r2.amount ∧
      r1.participants = r2.participants ∧ r1.notes = r2.notes) es1 es2) :
    ∀ m : NB, es1.foldlM applyExpense m = es2.foldlM applyExpense m := by
  induction h with
  | nil => intro m; rfl
  | cons hr hrest ih =>
    intro m
    simp only [List.foldlM_cons]
    rw [applyExpense_congr hr.2.1 hr.2.2.1 hr.2.2.2.1]
    cases happ : applyExpense m _ with
    | none => rfl
    | some m1 => simpa using ih m1

/-! ### The claims -/

section
attribute [local semireducible] Rat.add Rat.mul Rat.inv Rat.sub
  Rat.ofScientific

/-- C1 counterexample: the zero-sum claim fails as stated.  A single expense
row with payer `Alice`, amount `90` and an empty participant list runs the
pipeline successfully, yet the resulting balances sum to `90`, not `0`
(within `1e-6`): the amount "vanishes" from participant-side accounting. -/
theorem C1_counterexample :
    compute_expense_balances
        [⟨"1/1/2025", "Alice", some 90, "", "Equal", "", ""⟩]
      = some [("Alice", 90)] ∧
    adjust_for_payments [("Alice", 90)] [] = some [("Alice", 90)] ∧
    ¬ rabs (sumValues [("Alice", 90)]) ≤ 1 / 1000000 :=
  ⟨by decide, by decide, by decide⟩

/-- C1 (amended): for record sets on which the pipeline succeeds, in which
every expense row has a non-empty parsed participant list or an amount
parsing to `0`, and every payment row has both payer and payee non-empty or
an amount parsing to `0`, the sum of the balances produced by
`compute_expense_balances` followed by `adjust_for_payments` is exactly `0`
(in particular within `1e-6`). -/
theorem C1_zero_sum_amended {es : List ExpenseRow} {ps : List PaymentRow}
    {m1 m2 : NB}
    (hcomp : compute_expense_balances es = some m1)
    (hadj : adjust_for_payments m1 ps = some m2)
    (hes : ∀ r ∈ es, parseParticipants r.participants ≠ [] ∨
      r.amount.getD 0 = 0)
    (hps : ∀ r ∈ ps, (pyStrip r.payer ≠ "" ∧ pyStrip r.payee ≠ "") ∨
      r.amount.getD 0 = 0) :
    sumValues m2 = 0 ∧ rabs (sumValues m2) ≤ 1 / 1000000 := by
  have h1 : sumValues m1 = 0 := compute_sum_zero hcomp hes
  have h2 : sumValues m2 = sumValues m1 := adjust_sum_zero ps m1 m2 hadj hps
  refine ⟨by rw [h2, h1], ?_⟩
  rw [h2, h1, rabs_zero]
  norm_num

/-- Witness for C1 (amended) at a concrete input. -/
theorem C1_zero_sum_amended_witness :
    compute_expense_balances
        [⟨"1/1/2025", "Alice", some 90, "Alice, Bob", "Equal", "", ""⟩]
      = some [("Alice", 45), ("Bob", -45)] ∧
    (sumValues [("Alice", 45), ("Bob", -45)] = 0 ∧
      rabs (sumValues [("Alice", 45), ("Bob", -45)]) ≤ 1 / 1000000) :=
  ⟨by decide,
    @C1_zero_sum_amended
      [⟨"1/1/2025", "Alice", some 90, "Alice, Bob", "Equal", "", ""⟩] []
      [("Alice", 45), ("Bob", -45)] [("Alice", 45), ("Bob", -45)]
      (by decide) (by decide) (by decide) (by decide)⟩

/-- C2: the totality claim is contradicted by the code.  A well-typed
payment row whose payer (`Dan`) appears in no expense row makes
`adjust_for_payments` raise `KeyError` (modelled by `none`) instead of
producing a result, even though `compute_expense_balances` succeeded. -/
theorem C2_totality_failure :
    compute_expense_balances [] = some [] ∧
    adjust_for_payments []
        [⟨"1/2/2025", "Dan", some 5, "Erin", ""⟩] = none :=
  ⟨by decide, by decide⟩

/-- C3: the claim that every person mentioned in a payment record gets a
zero-initialised entry is contradicted by the code: a payment from `Carol`
(who is in no expense record) hits `net_balance[payer] += amount` with a
missing key and raises `KeyError` (modelled by `none`) instead of creating
her entry. -/
theorem C3_missing_payment_person :
    compute_expense_balances
        [⟨"1/1/2025", "Alice", some 10, "Alice", "Equal", "", ""⟩]
      = some [("Alice", 0)] ∧
    adjust_for_payments [("Alice", 0)]
        [⟨"1/2/2025", "Carol", some 5, "Alice", ""⟩] = none :=
  ⟨by decide, by decide⟩

/-- C4: two expense record sets that are identical except in the
`Split Type` and `Percentages` fields of their rows produce the same
balance mapping: `compute_expense_balances` never reads those fields. -/
theorem C4_split_type_irrelevant {es1 es2 : List ExpenseRow}
    (h : List.Forall₂ (fun r1 r2 => r1.date = r2.date ∧
      r1.payer = r2.payer ∧ r1.amount = r2.amount ∧
      r1.participants = r2.participants ∧ r1.notes = r2.notes) es1 es2) :
    compute_expense_balances es1 = compute_expense_balances es2 := by
  unfold compute_expense_balances collectPersons initBalances
  rw [foldl_collectStep_congr h, foldlM_applyExpense_congr h]

/-- Witness for C4: an `Equal` row and a `Custom` row with percentages,
otherwise identical, yield the same balances. -/
theorem C4_split_type_irrelevant_witness :
    List.Forall₂ (fun r1 r2 : ExpenseRow => r1.date = r2.date ∧
        r1.payer = r2.payer ∧ r1.amount = r2.amount ∧
        r1.participants = r2.participants ∧ r1.notes = r2.notes)
      [⟨"1/1/2025", "Alice", some 100, "Alice, Bob", "Equal", "", ""⟩]
      [⟨"1/1/2025", "Alice", some 100, "Alice, Bob", "Custom",
        "Alice:70, Bob:30", ""⟩] ∧
    compute_expense_balances
        [⟨"1/1/2025", "Alice", some 100, "Alice, Bob", "Equal", "", ""⟩]
      = compute_expense_balances
        [⟨"1/1/2025", "Alice", some 100, "Alice, Bob", "Custom",
          "Alice:70, Bob:30", ""⟩] :=
  ⟨List.Forall₂.cons ⟨rfl, rfl, rfl, rfl, rfl⟩ List.Forall₂.nil,
    C4_split_type_irrelevant
      (List.Forall₂.cons ⟨rfl, rfl, rfl, rfl, rfl⟩ List.Forall₂.nil)⟩

/-- C5: for a single expense record with a non-empty payer and
duplicate-free participant list, `compute_expense_balances` credits the
payer with the full amount and debits each participant by
`share = amount / |participants|` — the payer included when listed — and
`share = 0` with no deduction when the participant list is empty, the payer
still being credited the full amount. -/
theorem C5_expense_effect {r : ExpenseRow}
    (hpayer : pyStrip r.payer ≠ "")
    (hnd : (parseParticipants r.participants).Nodup) :
    ∃ m, compute_expense_balances [r] = some m ∧
      dictGet m (pyStrip r.payer)
        = some ((r.amount.getD 0)
          - (if pyStrip r.payer ∈ parseParticipants r.participants then
              expShare r else 0)) ∧
      (∀ p ∈ parseParticipants r.participants, p ≠ pyStrip r.payer →
        dictGet m p = some (-(expShare r))) ∧
      expShare r = (if parseParticipants r.participants ≠ [] then
        (r.amount.getD 0) / ((parseParticipants r.participants).length : ℚ)
      else 0) := by
  have hndp := collectPersons_nodup [r]
  have hpay_mem : pyStrip r.payer ∈ collectPersons [r] :=
    mem_collectPersons_payer (by simp) hpayer
  have hpart_mem : ∀ p ∈ parseParticipants r.participants,
      p ∈ collectPersons [r] :=
    fun p hp => mem_collectPersons_participant (by simp) hp
  have hkeys : (initBalances (collectPersons [r])).map Prod.fst
      = collectPersons [r] := initBalances_keys hndp
  obtain ⟨m1, hm1⟩ := addAt_eq_some
    (k := pyStrip r.payer) (by rw [hkeys]; exact hpay_mem) (r.amount.getD 0)
  have hkeys1 : m1.map Prod.fst = collectPersons [r] := by
    rw [addAt_keys hm1, hkeys]
  obtain ⟨m, hm⟩ := foldlM_addAt_total (v := -(expShare r))
    (parseParticipants r.participants) m1
    (fun p hp => by rw [hkeys1]; exact hpart_mem p hp)
  have hcomp : compute_expense_balances [r] = some m := by
    unfold compute_expense_balances
    have hfold : [r].foldlM applyExpense (initBalances (collectPersons [r]))
        = applyExpense (initBalances (collectPersons [r])) r := by
      rw [List.foldlM_cons]
      cases applyExpense (initBalances (collectPersons [r])) r <;> rfl
    rw [hfold]
    unfold applyExpense
    rw [hm1]
    simpa using hm
  refine ⟨m, hcomp, ?_, ?_, rfl⟩
  · have hg := foldlM_addAt_get (v := -(expShare r))
      (parseParticipants r.participants) hnd m1 m hm (pyStrip r.payer)
    have hg1 : dictGet m1 (pyStrip r.payer)
        = some (0 + r.amount.getD 0) := by
      have := addAt_dictGet_self hm1
      rw [initBalances_get hndp hpay_mem] at this
      simpa using this
    rw [hg, hg1]
    by_cases hin : pyStrip r.payer ∈ parseParticipants r.participants
    · simp only [hin, if_pos, Option.map_some']
      congr 1
      ring
    · simp only [hin, if_neg, Option.map_some', not_false_iff]
      congr 1
      ring
  · intro p hp hne
    have hg := foldlM_addAt_get (v := -(expShare r))
      (parseParticipants r.participants) hnd m1 m hm p
    have hg1 : dictGet m1 p = some 0 := by
      rw [addAt_dictGet_other hne hm1]
      exact initBalances_get hndp (hpart_mem p hp)
    rw [hg, hg1]
    simp only [hp, if_pos, Option.map_some']
    congr 1
    ring

/-- Witness for C5 at a concrete single expense row. -/
theorem C5_expense_effect_witness :
    pyStrip "Alice" ≠ "" ∧
    (parseParticipants "Alice,Bob,Carol").Nodup ∧
    (∃ m, compute_expense_balances
        [⟨"1/1/2025", "Alice", some 90, "Alice,Bob,Carol", "Equal", "", ""⟩]
        = some m ∧
      dictGet m (pyStrip "Alice")
        = some (((some (90:ℚ)).getD 0)
          - (if pyStrip "Alice" ∈ parseParticipants "Alice,Bob,Carol" then
              expShare ⟨"1/1/2025", "Alice", some 90, "Alice,Bob,Carol",
                "Equal", "", ""⟩ else 0)) ∧
      (∀ p ∈ parseParticipants "Alice,Bob,Carol", p ≠ pyStrip "Alice" →
        dictGet m p = some (-(expShare ⟨"1/1/2025", "Alice", some 90,
          "Alice,Bob,Carol", "Equal", "", ""⟩))) ∧
      expShare ⟨"1/1/2025", "Alice", some 90, "Alice,Bob,Carol", "Equal",
        "", ""⟩
        = (if parseParticipants "Alice,Bob,Carol" ≠ [] then
            ((some (90:ℚ)).getD 0)
              / ((parseParticipants "Alice,Bob,Carol").length : ℚ)
          else 0)) :=
  ⟨by decide, by decide,
    C5_expense_effect (by decide) (by decide)⟩

/-- C6: `settle_debts` coincides with the settlement planner as the
specification describes it — partition at the `1e-9` thresholds, stable
sort of creditors descending and debtors ascending, then the two-cursor
greedy sweep emitting `min(c, -d)` settlements in emission order — and the
sorted lists are indeed descending respectively ascending. -/
theorem C6_planner_description (nb : NB) :
    settle_debts nb = settle_debts_spec nb ∧
    (creditorsOf nb).Pairwise (fun e1 e2 => e2.2 ≤ e1.2) ∧
    (debtorsOf nb).Pairwise (fun e1 e2 => e1.2 ≤ e2.2) := by
  refine ⟨?_, ?_, ?_⟩
  · rw [settle_debts_eq_sweep]
    simp only [settle_debts_spec, debtorsOf, creditorsOf]
  · refine List.Pairwise.imp ?_
      (sortStable_pairwise descLe_total descLe_trans (nb.filter isCreditor))
    intro e1 e2 h
    simpa [descLe, decide_eq_true_eq] using h
  · refine List.Pairwise.imp ?_
      (sortStable_pairwise ascLe_total ascLe_trans (nb.filter isDebtor))
    intro e1 e2 h
    simpa [ascLe, decide_eq_true_eq] using h

/-- C7 counterexample: replaying the emitted transactions does NOT drive
every creditor/debtor within `eps = 1e-9` of zero, even for a mapping whose
values sum to exactly `0`.  `C` is a creditor (balance `1.8e-9 > eps`), but
both debtors are exhausted settling `A` and `B`, so `C` is never touched
and retains `1.8e-9 > eps` after replay. -/
theorem C7_counterexample :
    sumValues [("A", 10), ("B", 9), ("C", 9 / 5000000000),
      ("D", -10 - 9 / 10000000000), ("E", -9 - 9 / 10000000000)] = 0 ∧
    eps < (9 / 5000000000 : ℚ) ∧
    settle_debts [("A", 10), ("B", 9), ("C", 9 / 5000000000),
        ("D", -10 - 9 / 10000000000), ("E", -9 - 9 / 10000000000)]
      = [("D", "A", 10), ("E", "B", 9)] ∧
    ¬ rabs ((9 / 5000000000 : ℚ)
      + paidAmt "C" (settle_debts [("A", 10), ("B", 9),
          ("C", 9 / 5000000000), ("D", -10 - 9 / 10000000000),
          ("E", -9 - 9 / 10000000000)])
      - recvAmt "C" (settle_debts [("A", 10), ("B", 9),
          ("C", 9 / 5000000000), ("D", -10 - 9 / 10000000000),
          ("E", -9 - 9 / 10000000000)])) ≤ eps :=
  ⟨by decide, by decide, by decide, by decide⟩

/-- C7 (amended): for a balance mapping with distinct keys whose values sum
exactly to `0`, replaying all transactions emitted by `settle_debts`
(adding each amount to the debtor's balance and subtracting it from the
creditor's) leaves every person who appeared among the creditors or the
debtors within `n * eps` of zero, where `n` is the number of entries of the
mapping (the per-person bound `eps` itself is refuted by
`C7_counterexample`). -/
theorem C7_settlement_validity_amended {nb : NB} {p : String} {v : ℚ}
    (hnd : (nb.map Prod.fst).Nodup) (hsum : sumValues nb = 0)
    (hget : dictGet nb p = some v) (hout : v < -eps ∨ eps < v) :
    rabs (v + paidAmt p (settle_debts nb) - recvAmt p (settle_debts nb))
      ≤ (nb.length : ℚ) * eps := by
  have hmem : (p, v) ∈ nb := dictGet_mem hget
  have hndn := settle_names_nodup hnd
  have hbound := sweep_fin_bound
    ((debtorsOf nb).length + (creditorsOf nb).length)
    (debtorsOf nb) (creditorsOf nb) (le_refl _) hndn
    (debtorsOf_neg nb) (creditorsOf_pos nb)
  obtain ⟨A2, _, _, _, _⟩ := sweep_invariant
    ((debtorsOf nb).length + (creditorsOf nb).length)
    (debtorsOf nb) (creditorsOf nb) (le_refl _) hndn
    (debtorsOf_neg nb) (creditorsOf_pos nb)
  have hdisj : ∀ x ∈ (debtorsOf nb).map Prod.fst,
      x ∉ (creditorsOf nb).map Prod.fst := by
    have h := hndn
    rw [List.map_append, List.nodup_append] at h
    exact fun x hx => h.2.2 hx
  -- the total of the two sorted lists is minus the near-zero total
  have hS : sumValues (debtorsOf nb) + sumValues (creditorsOf nb)
      = -(sumValues (nb.filter (fun e => !(isDebtor e || isCreditor e)))) := by
    have h3 := filter_three_sum nb
    rw [debtorsOf_sum, creditorsOf_sum, hsum] at *
    linarith [filter_three_sum nb, hsum]
  have hSbound : rabs (sumValues (debtorsOf nb) + sumValues (creditorsOf nb))
      ≤ ((nb.filter (fun e => !(isDebtor e || isCreditor e))).length : ℚ)
        * eps := by
    rw [hS, rabs_neg]
    exact near_zero_sum_bound nb
  have hlen3 := filter_three_length nb
  have hlenq : ((debtorsOf nb).length : ℚ) + ((creditorsOf nb).length : ℚ)
      + ((nb.filter (fun e => !(isDebtor e || isCreditor e))).length : ℚ)
      = (nb.length : ℚ) := by
    rw [debtorsOf_length, creditorsOf_length]
    exact_mod_cast hlen3
  rcases hout with hv | hv
  · have hin : (p, v) ∈ debtorsOf nb := mem_debtorsOf.mpr ⟨hmem, hv⟩
    have hfin := hbound.1 (p, v) hin
    have hpd : p ∈ (debtorsOf nb).map Prod.fst :=
      List.mem_map_of_mem Prod.fst hin
    have hrec0 : recvAmt p (settle_debts nb) = 0 := by
      rw [settle_debts_eq_sweep]
      apply recvAmt_eq_zero
      intro t ht heq
      exact hdisj p hpd (heq ▸ (A2 t ht).2.1)
    rw [hrec0, settle_debts_eq_sweep]
    have hfin2 : rabs (v + paidAmt p (sweep
        ((debtorsOf nb).length + (creditorsOf nb).length)
        (debtorsOf nb) (creditorsOf nb)))
        ≤ rabs (sumValues (debtorsOf nb) + sumValues (creditorsOf nb))
          + (((debtorsOf nb).length : ℚ) + ((creditorsOf nb).length : ℚ))
            * eps := hfin
    have heps := eps_pos
    calc rabs (v + paidAmt p (sweep
          ((debtorsOf nb).length + (creditorsOf nb).length)
          (debtorsOf nb) (creditorsOf nb)) - 0)
        = rabs (v + paidAmt p (sweep
          ((debtorsOf nb).length + (creditorsOf nb).length)
          (debtorsOf nb) (creditorsOf nb))) := by rw [sub_zero]
      _ ≤ rabs (sumValues (debtorsOf nb) + sumValues (creditorsOf nb))
          + (((debtorsOf nb).length : ℚ) + ((creditorsOf nb).length : ℚ))
            * eps := hfin2
      _ ≤ (nb.length : ℚ) * eps := by nlinarith [hSbound, hlenq]
  · have hin : (p, v) ∈ creditorsOf nb := mem_creditorsOf.mpr ⟨hmem, hv⟩
    have hfin := hbound.2 (p, v) hin
    have hpc : p ∈ (creditorsOf nb).map Prod.fst :=
      List.mem_map_of_mem Prod.fst hin
    have hpaid0 : paidAmt p (settle_debts nb) = 0 := by
      rw [settle_debts_eq_sweep]
      apply paidAmt_eq_zero
      intro t ht heq
      exact hdisj t.1 ((A2 t ht).1) (heq ▸ hpc)
    rw [hpaid0, settle_debts_eq_sweep]
    have hfin2 : rabs (v - recvAmt p (sweep
        ((debtorsOf nb).length + (creditorsOf nb).length)
        (debtorsOf nb) (creditorsOf nb)))
        ≤ rabs (sumValues (debtorsOf nb) + sumValues (creditorsOf nb))
          + (((debtorsOf nb).length : ℚ) + ((creditorsOf nb).length : ℚ))
            * eps := hfin
    have heps := eps_pos
    calc rabs (v + 0 - recvAmt p (sweep
          ((debtorsOf nb).length + (creditorsOf nb).length)
          (debtorsOf nb) (creditorsOf nb)))
        = rabs (v - recvAmt p (sweep
          ((debtorsOf nb).length + (creditorsOf nb).length)
          (debtorsOf nb) (creditorsOf nb))) := by rw [add_zero]
      _ ≤ rabs (sumValues (debtorsOf nb) + sumValues (creditorsOf nb))
          + (((debtorsOf nb).length : ℚ) + ((creditorsOf nb).length : ℚ))
            * eps := hfin2
      _ ≤ (nb.length : ℚ) * eps := by nlinarith [hSbound, hlenq]

/-- Witness for C7 (amended) at a concrete two-person mapping. -/
theorem C7_settlement_validity_amended_witness :
    (([("A", 1), ("B", -1)] : NB).map Prod.fst).Nodup ∧
    sumValues [("A", 1), ("B", -1)] = 0 ∧
    dictGet [("A", 1), ("B", -1)] "A" = some 1 ∧
    rabs (1 + paidAmt "A" (settle_debts [("A", 1), ("B", -1)])
        - recvAmt "A" (settle_debts [("A", 1), ("B", -1)]))
      ≤ ((([("A", 1), ("B", -1)] : NB).length : ℚ)) * eps :=
  ⟨by decide, by decide, by decide,
    @C7_settlement_validity_amended [("A", 1), ("B", -1)] "A" 1
      (by decide) (by decide) (by decide) (Or.inr (by decide))⟩

/-- C8: for every balance mapping `settle_debts` terminates — any fuel at
least `|debtors| + |creditors|` gives the same cursor-loop result — and
when there is at least one debtor and one creditor the number of emitted
transactions is at most `|debtors| + |creditors| - 1`. -/
theorem C8_termination_and_count (nb : NB) :
    (∀ fuel, (debtorsOf nb).length + (creditorsOf nb).length ≤ fuel →
      settleLoopC fuel 0 0 (debtorsOf nb) (creditorsOf nb)
        = settle_debts nb) ∧
    (1 ≤ (nb.filter isDebtor).length → 1 ≤ (nb.filter isCreditor).length →
      (settle_debts nb).length
        ≤ (nb.filter isDebtor).length + (nb.filter isCreditor).length - 1)
    := by
  constructor
  · intro fuel hf
    rw [settleLoopC_eq_sweep, List.drop_zero, List.drop_zero,
      settle_debts_eq_sweep]
    exact sweep_fuel_congr fuel _ (debtorsOf nb) (creditorsOf nb) hf
      (le_refl _)
  · intro hD hC
    rw [settle_debts_eq_sweep]
    have hb := sweep_length ((debtorsOf nb).length + (creditorsOf nb).length)
      (debtorsOf nb) (creditorsOf nb)
    have h1 := debtorsOf_length nb
    have h2 := creditorsOf_length nb
    omega

/-- Witness for C8 at a concrete mapping (fuel `7 ≥ 2`). -/
theorem C8_termination_and_count_witness :
    (settleLoopC 7 0 0 (debtorsOf [("A", 1), ("B", -1)])
        (creditorsOf [("A", 1), ("B", -1)])
      = settle_debts [("A", 1), ("B", -1)]) ∧
    (settle_debts [("A", 1), ("B", -1)]).length
      ≤ (([("A", 1), ("B", -1)] : NB).filter isDebtor).length
        + (([("A", 1), ("B", -1)] : NB).filter isCreditor).length - 1 :=
  ⟨(C8_termination_and_count [("A", 1), ("B", -1)]).1 7 (by decide),
    (C8_termination_and_count [("A", 1), ("B", -1)]).2
      (by decide) (by decide)⟩

/-- C9: when the mapping's keys are distinct, every transaction emitted by
`settle_debts` has a strictly positive amount, a debtor whose balance in
the input mapping is below `-1e-9`, a creditor whose balance is above
`1e-9`, and hence distinct debtor and creditor. -/
theorem C9_transaction_shape {nb : NB} (hnd : (nb.map Prod.fst).Nodup) :
    ∀ t ∈ settle_debts nb, 0 < t.2.2 ∧
      (∃ v, dictGet nb t.1 = some v ∧ v < -eps) ∧
      (∃ w, dictGet nb t.2.1 = some w ∧ eps < w) ∧
      t.1 ≠ t.2.1 := by
  intro t ht
  rw [settle_debts_eq_sweep] at ht
  obtain ⟨A2, _, _, _, _⟩ := sweep_invariant
    ((debtorsOf nb).length + (creditorsOf nb).length)
    (debtorsOf nb) (creditorsOf nb) (le_refl _) (settle_names_nodup hnd)
    (debtorsOf_neg nb) (creditorsOf_pos nb)
  have hA := A2 t ht
  rcases List.mem_map.mp hA.1 with ⟨e1, he1, h1⟩
  rcases List.mem_map.mp hA.2.1 with ⟨e2, he2, h2⟩
  rcases mem_debtorsOf.mp he1 with ⟨hm1, hv1⟩
  rcases mem_creditorsOf.mp he2 with ⟨hm2, hv2⟩
  have g1 : dictGet nb t.1 = some e1.2 := by
    rw [← h1]
    apply mem_dictGet hnd
    rw [Prod.mk.eta]
    exact hm1
  have g2 : dictGet nb t.2.1 = some e2.2 := by
    rw [← h2]
    apply mem_dictGet hnd
    rw [Prod.mk.eta]
    exact hm2
  refine ⟨hA.2.2, ⟨e1.2, g1, hv1⟩, ⟨e2.2, g2, hv2⟩, ?_⟩
  intro heq
  rw [heq, g2, Option.some.injEq] at g1
  have := eps_pos
  rw [← g1] at hv1
  linarith

/-- Witness for C9 at a concrete mapping. -/
theorem C9_transaction_shape_witness :
    0 < (("B", "A", (1 : ℚ)) : Txn).2.2 ∧
    (∃ v, dictGet ([("A", 1), ("B", -1)] : NB) ("B", "A", (1 : ℚ)).1
      = some v ∧ v < -eps) ∧
    (∃ w, dictGet ([("A", 1), ("B", -1)] : NB) ("B", "A", (1 : ℚ)).2.1
      = some w ∧ eps < w) ∧
    (("B", "A", (1 : ℚ)) : Txn).1 ≠ (("B", "A", (1 : ℚ)) : Txn).2.1 :=
  @C9_transaction_shape [("A", 1), ("B", -1)] (by decide)
    ("B", "A", 1) (by decide)

/-- C10: `settle_debts` leaves the balance dict it was given untouched —
the post-state of the heap-explicit version equals the input — and so
re-running the planner on that dict yields the same transaction list. -/
theorem C10_planner_preserves_input (nb : NB) :
    (settle_debts_state nb).2 = nb ∧
    (settle_debts_state nb).1 = settle_debts nb ∧
    (settle_debts_state ((settle_debts_state nb).2)).1
      = (settle_debts_state nb).1 :=
  ⟨rfl, rfl, rfl⟩

end
